import Mathlib

/-!
Verification of the rectangle-packing core of the `atlas` texture packer
(`src/rectangle.rs`, `src/packing.rs`, and the data model of `src/sources.rs`).

Modelling conventions:
* Rust `u32` values are modelled as `Nat`.  The source's `saturating_add`,
  `saturating_sub` and `saturating_mul` become `satAdd` (capped at `u32Max`),
  `Nat.sub` (which already truncates at 0, exactly like `u32::saturating_sub`)
  and `satMul`.  Unchecked `u32` arithmetic (`+`, `*`, `pow`, `as u32` casts)
  wraps modulo `2^32` in release builds; it is modelled by `wadd`, `wmul`
  and `w32`.
* Rust `u64` accumulation (`sum::<u64>()` over per-texture `u32` products)
  is modelled as a plain `Nat` sum: every summand is `< 2^32`, so a `u64`
  wrap would need at least `2^32` textures and cannot occur.
* The `path : PathBuf` field of `SourceTexture` is kept as a `String`; it is
  never inspected by the packing code.
* The progress channel argument of `pack_everything` only emits progress
  ticks and never influences the computation; it is omitted.
* Methods that mutate `self` in Rust are modelled as pure functions that
  return the updated value.
-/

/-- `2^32`, the modulus of Rust `u32` arithmetic. -/
def u32Mod : Nat := 4294967296

/-- `u32::MAX`, the cap of the saturating operations. -/
def u32Max : Nat := 4294967295

/-- Wrapping `u32` addition (release-mode behaviour of `a + b` on `u32`). -/
def wadd (a b : Nat) : Nat := (a + b) % u32Mod

/-- Wrapping `u32` multiplication (release-mode behaviour of `a * b` / `pow`). -/
def wmul (a b : Nat) : Nat := (a * b) % u32Mod

/-- The `as u32` truncating cast. -/
def w32 (a : Nat) : Nat := a % u32Mod

/-- `u32::saturating_add`. -/
def satAdd (a b : Nat) : Nat := min (a + b) u32Max

/-- `u32::saturating_mul`. -/
def satMul (a b : Nat) : Nat := min (a * b) u32Max

/-- `Rect` from `src/rectangle.rs`: an axis-aligned rectangle with `u32`
fields.  `PartialEq`/`Eq` is field-wise equality, as derived in Rust. -/
structure Rect where
  x : Nat
  y : Nat
  width : Nat
  height : Nat
deriving DecidableEq, Repr

instance : Inhabited Rect := ⟨⟨0, 0, 0, 0⟩⟩

/-- `Rect::new`. -/
def Rect.new (x y width height : Nat) : Rect := ⟨x, y, width, height⟩

/-- `Rect::area`: `width.saturating_mul(height)`. -/
def Rect.area (r : Rect) : Nat := satMul r.width r.height

/-- `Rect::place_at` (pure rendering of the in-place mutation). -/
def Rect.place_at (r : Rect) (x y : Nat) : Rect := { r with x := x, y := y }

/-- `Rect::rotate`: swaps width and height. -/
def Rect.rotate (r : Rect) : Rect := { r with width := r.height, height := r.width }

/-- `Rect::can_contain`: `self.width >= r.width && self.height >= r.height`. -/
def Rect.can_contain (s r : Rect) : Bool :=
  decide (r.width ≤ s.width) && decide (r.height ≤ s.height)

/-- `Rect::contains` (position-aware containment).  The two unchecked `+`
on the left-hand sides wrap in release mode, hence `wadd`; the right-hand
sides use `saturating_add` in the source, hence `satAdd`. -/
def Rect.contains (s r : Rect) : Bool :=
  !(decide (r.x < s.x) || decide (r.y < s.y) ||
    decide (satAdd s.x s.width < wadd r.x r.width) ||
    decide (satAdd s.y s.height < wadd r.y r.height))

/-- `Rect::intersection`. -/
def Rect.intersection (s r : Rect) : Rect :=
  let x := max s.x r.x
  let y := max s.y r.y
  let width := (min (satAdd s.x s.width) (satAdd r.x r.width)) - x
  let height := (min (satAdd s.y s.height) (satAdd r.y r.height)) - y
  ⟨x, y, width, height⟩

/-- `Rect::distance_from_origin` computes
`((x² saturating+ y²) as f64).sqrt()` and `Rect::cmp_by_distance` compares
two such square roots through `partial_cmp`.  Both squared distances are
exactly representable in `f64` (they are `≤ u32::MAX < 2^53`) and on
`[0, 2^33]` the correctly-rounded `sqrt` is strictly monotone and injective
(consecutive integers there have square-root gaps `≥ 2^-17.5`, far above
one ulp `≈ 2^-36`), and never NaN, so comparing the `f64` square roots is
exactly comparing the squared distances as naturals.  We therefore model
the distance by its square.  `x.pow(2)` is unchecked `u32` arithmetic,
hence `wmul`; the sum uses `saturating_add`. -/
def Rect.distSq (r : Rect) : Nat := satAdd (wmul r.x r.x) (wmul r.y r.y)

/-- `u32::cmp` (also the effective result of `partial_cmp` on the non-NaN
square roots, see `Rect.distSq`). -/
def cmpNat (a b : Nat) : Ordering :=
  if a < b then .lt else if a = b then .eq else .gt

/-- `Rect::cmp_by_distance` (see `Rect.distSq` for the `f64` reduction). -/
def Rect.cmp_by_distance (a b : Rect) : Ordering := cmpNat a.distSq b.distSq

/-- `Rect::cmp_by_area`. -/
def Rect.cmp_by_area (a b : Rect) : Ordering := cmpNat a.area b.area

/-- `Rect::slice_out`: cuts the four residual pieces (top, bottom, right,
left, pushed in that order) of `s` around `r`, keeping only pieces of
positive area.  Pieces are only produced when `s` and `r` genuinely
overlap.
(`relative_position` is `(r.x - s.x, r.y - s.y)` — saturating subtraction
— and is inlined below.) -/
def Rect.slice_out (s r : Rect) : List Rect :=
  if (s.intersection r).area > 0 then
    [(⟨s.x, s.y, s.width, r.y - s.y⟩ : Rect),
     ⟨s.x, satAdd r.y r.height, s.width, s.height - satAdd (r.y - s.y) r.height⟩,
     ⟨satAdd r.x r.width, s.y, s.width - satAdd (r.x - s.x) r.width, s.height⟩,
     ⟨s.x, s.y, r.x - s.x, s.height⟩].filter (fun p => decide (p.area > 0))
  else []

/-- `PackingMethod` from `src/packing.rs`. -/
inductive PackingMethod where
  | Distance
  | Area
deriving DecidableEq, Repr

/-- `PackingSettings` from `src/packing.rs`. -/
structure PackingSettings where
  method : PackingMethod
  spacing : Nat
  rotation : Bool
  page_size : Option (Nat × Nat)
deriving DecidableEq, Repr

/-- `PackingData` from `src/sources.rs`. -/
structure PackingData where
  position : Rect
  rotated : Bool
deriving DecidableEq, Repr

/-- `SourceTexture` from `src/sources.rs`. -/
structure SourceTexture where
  name : String
  path : String
  dimensions : Rect
  replica_of : Option String
  packing : Option PackingData
deriving DecidableEq, Repr

instance : Inhabited SourceTexture := ⟨⟨"", "", default, none, none⟩⟩

/-- `TexturePage` from `src/packing.rs`. -/
structure TexturePage where
  name : String
  textures : List SourceTexture
  size : Option (Nat × Nat)
  free_slots : List Rect
deriving DecidableEq, Repr

instance : Inhabited TexturePage := ⟨⟨"", [], none, []⟩⟩

/-- `TexturePage::new`. -/
def TexturePage.new (name : String) (size : Option (Nat × Nat)) : TexturePage :=
  { name := name
    textures := []
    size := size
    free_slots := match size with
      | some (w, h) => [Rect.new 0 0 w h]
      | none => [] }

/-- `TexturePage::packed_rects`: positions of every already-placed texture. -/
def TexturePage.packed_rects (p : TexturePage) : List Rect :=
  (p.textures.filterMap (fun t => t.packing)).map (fun pd => pd.position)

/-- `TexturePage::packed_bounds`: the running maxima of the saturated
right/bottom edges of the placed rectangles. -/
def TexturePage.packed_bounds (p : TexturePage) : Nat × Nat :=
  p.packed_rects.foldl
    (fun acc r => (max (satAdd r.x r.width) acc.1, max (satAdd r.y r.height) acc.2))
    (0, 0)

/-- Indices of free slots that `can_contain` the probe rectangle
(the `(0..len).filter(...)` collections in `pack_rectangle`). -/
def candidateIdxs (slots : List Rect) (r : Rect) : List Nat :=
  (List.range slots.length).filter (fun i => (slots.getD i default).can_contain r)

/-- The full candidate list of `pack_rectangle`: slots fitting `r`, plus —
when rotation is enabled — slots fitting the rotated probe `rRot` that were
not already collected. -/
def candList (slots : List Rect) (r rRot : Rect) (rotation : Bool) : List Nat :=
  let base := candidateIdxs slots r
  if rotation then
    base ++ (List.range slots.length).filter
      (fun i => (slots.getD i default).can_contain rRot && !(base.contains i))
  else base

/-- The free rectangle synthesized by the dynamic-growth branch of
`pack_rectangle` when no candidate exists and the page size is dynamic:

    if bounds.0 + r.width >= bounds.1 + r.height
      { Rect::new(0, bounds.1, max(bounds.0, r.width), r.height) }
    else { Rect::new(bounds.0, 0, r.width, max(bounds.1, r.height)) }

(the comparison uses unchecked `u32` addition, hence `wadd`). -/
def newSlot (bounds : Nat × Nat) (r : Rect) : Rect :=
  if wadd bounds.2 r.height ≤ wadd bounds.1 r.width then
    Rect.new 0 bounds.2 (max bounds.1 r.width) r.height
  else
    Rect.new bounds.1 0 r.width (max bounds.2 r.height)

/-- The comparator selected by `settings.method`:
`Distance` is `cmp_by_distance(a,b).then(cmp_by_area(a,b))`,
`Area` is `cmp_by_area(a,b).then(cmp_by_distance(a,b))`. -/
def cmpMethod (m : PackingMethod) (a b : Rect) : Ordering :=
  match m with
  | .Distance => (a.cmp_by_distance b).then (a.cmp_by_area b)
  | .Area => (a.cmp_by_area b).then (a.cmp_by_distance b)

/-- Rust's `Iterator::min_by` over the candidate indices: a left fold that
keeps the accumulator unless the comparator says it is strictly greater,
i.e. it returns the first minimum.  The `[] => 0` case is unreachable in
`pack_rectangle` (the candidate list is non-empty there; Rust `unwrap`s). -/
def pickIndex (slots : List Rect) (m : PackingMethod) (cands : List Nat) : Nat :=
  match cands with
  | [] => 0
  | c :: cs =>
    cs.foldl
      (fun acc j =>
        if cmpMethod m (slots.getD acc default) (slots.getD j default) = .gt then j else acc)
      c

/-- One iteration of the overlap-reconciliation loop of `pack_rectangle` at
index `idx`: if the slot overlaps `r` with positive area, remove it and
append its `slice_out` residuals at the end of the list. -/
def reconStep (r : Rect) (slots : List Rect) (idx : Nat) : List Rect :=
  if ((slots.getD idx default).intersection r).area > 0 then
    slots.eraseIdx idx ++ (slots.getD idx default).slice_out r
  else slots

/-- The back-to-front overlap-reconciliation loop
(`for idx in (0..len).rev()`): the counter `n` is the exclusive upper bound
of the remaining indices.  The bound is taken once, before the loop, so
residuals appended during the loop are never themselves processed; removals
happen only at the current index, so positions below it still hold their
original elements. -/
def reconcile (r : Rect) : List Rect → Nat → List Rect
  | slots, 0 => slots
  | slots, n + 1 => reconcile r (reconStep r slots n) n

/-- The whole reconciliation pass of `pack_rectangle`. -/
def reconcileAll (r : Rect) (slots : List Rect) : List Rect :=
  reconcile r slots slots.length

/-- Whether the pruning loop of `pack_rectangle` discards the slot at
(original) index `a`: the inner loop runs over `0..(a.saturating_sub(1))`
— every index strictly below `a - 1` — and removes slot `a` (breaking the
inner loop) as soon as some slot `b` `contains` it.  Since the removal
happens at most once, the loop's effect is this existence check. -/
def pruneHit (slots : List Rect) (a : Nat) : Bool :=
  (List.range (a - 1)).any (fun b => (slots.getD b default).contains (slots.getD a default))

/-- One outer iteration of the pruning loop at index `a`. -/
def pruneStep (slots : List Rect) (a : Nat) : List Rect :=
  if pruneHit slots a then slots.eraseIdx a else slots

/-- The back-to-front pruning loop of `pack_rectangle`
(`for a in (0..len).rev()`), with the same counter convention as
`reconcile`. -/
def pruneAux : List Rect → Nat → List Rect
  | slots, 0 => slots
  | slots, n + 1 => pruneAux (pruneStep slots n) n

/-- The whole redundancy-pruning pass of `pack_rectangle`. -/
def prune (slots : List Rect) : List Rect :=
  pruneAux slots slots.length

/-- The free slot picked by `pack_rectangle` (`let pick = ...remove(...)`,
split into the read and the removal). -/
def pickedRect (slots : List Rect) (m : PackingMethod) (cands : List Nat) : Rect :=
  slots.getD (pickIndex slots m cands) default

/-- Whether `pack_rectangle` rotates the probe: exactly when the picked
slot cannot contain it as oriented. -/
def packRot (slots : List Rect) (m : PackingMethod) (cands : List Nat) (r0 : Rect) : Bool :=
  !((pickedRect slots m cands).can_contain r0)

/-- The rectangle actually placed: the probe, rotated if required, moved
to the picked slot's origin (`r.place_at(pick.x, pick.y)`). -/
def placedRect (slots : List Rect) (m : PackingMethod) (cands : List Nat) (r0 : Rect) : Rect :=
  (if packRot slots m cands r0 then r0.rotate else r0).place_at
    (pickedRect slots m cands).x (pickedRect slots m cands).y

/-- The free-slot list after a placement: remove the picked slot, append
its `slice_out` residuals, reconcile every remaining slot against the
placed rectangle, and prune. -/
def newFree (slots : List Rect) (m : PackingMethod) (cands : List Nat) (r0 : Rect) : List Rect :=
  prune (reconcileAll (placedRect slots m cands r0)
    (slots.eraseIdx (pickIndex slots m cands) ++
      (pickedRect slots m cands).slice_out (placedRect slots m cands r0)))

/-- The tail of `pack_rectangle` once a non-empty candidate list over
`slots` is available: pick the best candidate, remove it, resolve the
orientation, place the rectangle, slice the picked slot, reconcile the
remaining slots and prune (the sequential `let`s of the source are the
named definitions above). -/
def packCore (page : TexturePage) (slots : List Rect) (cands : List Nat) (r0 : Rect)
    (m : PackingMethod) : PackingData × TexturePage :=
  (⟨placedRect slots m cands r0, packRot slots m cands r0⟩,
   { page with free_slots := newFree slots m cands r0 })

/-- `TexturePage::pack_rectangle`.  Returns the `PackingData` together with
the updated page (`None` mutates nothing in the source). -/
def TexturePage.pack_rectangle (page : TexturePage) (dims : Nat × Nat)
    (st : PackingSettings) : Option (PackingData × TexturePage) :=
  let r0 : Rect := Rect.new 0 0 (wadd dims.1 st.spacing) (wadd dims.2 st.spacing)
  let rRot : Rect := Rect.new 0 0 (wadd dims.2 st.spacing) (wadd dims.1 st.spacing)
  let bounds := page.packed_bounds
  let cands := candList page.free_slots r0 rRot st.rotation
  match cands.isEmpty, st.page_size with
  | true, some _ => none
  | true, none =>
    let slots := page.free_slots ++ [newSlot bounds r0]
    some (packCore page slots [slots.length - 1] r0 st.method)
  | false, _ => some (packCore page page.free_slots cands r0 st.method)

/-- `TexturePacker` from `src/packing.rs`. -/
structure TexturePacker where
  label : String
  pages : List TexturePage
  settings : PackingSettings
  sources : List SourceTexture
deriving DecidableEq, Repr

/-- `TexturePacker::new`. -/
def TexturePacker.new (label : String) (sources : List SourceTexture)
    (settings : PackingSettings) : TexturePacker :=
  { label := label
    sources := sources
    pages := [TexturePage.new label settings.page_size]
    settings := settings }

/-- `TexturePacker::add_page`. -/
def TexturePacker.add_page (p : TexturePacker) : TexturePacker :=
  { p with pages := p.pages ++ [TexturePage.new p.label p.settings.page_size] }

/-- `TexturePacker::page_size`. -/
def TexturePacker.page_size (p : TexturePacker) : Nat × Nat :=
  match p.settings.page_size with
  | some wh => wh
  | none => if p.pages.isEmpty then (0, 0) else (p.pages.getD 0 default).packed_bounds

/-- `TexturePacker::total_source_area`: per page, sum the `u32` products
`width * height` (wrapping, then cast to `u64`) of the non-replica
textures; then sum over pages.  `u64` sums are modelled as plain `Nat`
sums (see the header). -/
def TexturePacker.total_source_area (p : TexturePacker) : Nat :=
  (p.pages.map (fun pg =>
    (pg.textures.filterMap (fun t =>
      match t.replica_of with
      | some _ => none
      | none => some (wmul t.dimensions.width t.dimensions.height))).foldl (· + ·) 0)).foldl
    (· + ·) 0

/-- `TexturePacker::total_packed_area`: `(len as u32) * w * h` in wrapping
`u32` arithmetic for fixed pages, else the wrapping `u32` product of the
first page's packed bounds. -/
def TexturePacker.total_packed_area (p : TexturePacker) : Nat :=
  match p.settings.page_size with
  | some (w, h) => wmul (wmul (w32 p.pages.length) w) h
  | none =>
    let b := (p.pages.getD 0 default).packed_bounds
    wmul b.1 b.2

/-- Appends a texture, with its packing data filled in, to a page
(the `texture.packing = Some(packing); page.textures.push(texture)` step
of `pack_everything`). -/
def pushTexture (p : TexturePage) (tex : SourceTexture) (pd : PackingData) : TexturePage :=
  { p with textures := p.textures ++ [{ tex with packing := some pd }] }

/-- The `find_map` over pages of `pack_everything`: try each page in order;
the first page whose `pack_rectangle` succeeds receives the texture. -/
def tryPages (dims : Nat × Nat) (st : PackingSettings) (tex : SourceTexture) :
    List TexturePage → Option (List TexturePage)
  | [] => none
  | pg :: rest =>
    match pg.pack_rectangle dims st with
    | some (pd, pg') => some (pushTexture pg' tex pd :: rest)
    | none => (tryPages dims st tex rest).map (fun rest' => pg :: rest')

/-- Placement of one non-replica texture in `pack_everything`: first-fit
over the existing pages, else add a fresh page and pack there; if even the
fresh page refuses, fail with the named-texture error.  (On the error path
Rust leaves the half-updated packer behind and the caller aborts; the
embedding returns only the error message.) -/
def packOne (label : String) (st : PackingSettings) (pages : List TexturePage)
    (tex : SourceTexture) : Except String (List TexturePage) :=
  let dims := (tex.dimensions.width, tex.dimensions.height)
  match tryPages dims st tex pages with
  | some pages' => .ok pages'
  | none =>
    match (TexturePage.new label st.page_size).pack_rectangle dims st with
    | some (pd, pg') => .ok (pages ++ [pushTexture pg' tex pd])
    | none => .error ("failed to pack texture " ++ tex.name ++ ".")

/-- Phase 1 of `pack_everything`: consume the sources in order, packing the
non-replicas and queueing the replicas (in order) for phase 2. -/
def phase1 (label : String) (st : PackingSettings) :
    List TexturePage → List SourceTexture → List SourceTexture →
    Except String (List TexturePage × List SourceTexture)
  | pages, reps, [] => .ok (pages, reps)
  | pages, reps, tex :: rest =>
    match tex.replica_of with
    | none =>
      match packOne label st pages tex with
      | .ok pages' => phase1 label st pages' reps rest
      | .error e => .error e
    | some _ => phase1 label st pages (reps ++ [tex]) rest

/-- The page scan for one replica: the first page holding a texture whose
name equals the replica's target receives the replica, with the found
texture's packing copied verbatim; if no page matches, the replica is
dropped. -/
def replicaFind (tex : SourceTexture) (orig : String) : List TexturePage → List TexturePage
  | [] => []
  | pg :: rest =>
    match pg.textures.find? (fun t => t.name == orig) with
    | some m => { pg with textures := pg.textures ++ [{ tex with packing := m.packing }] } :: rest
    | none => pg :: replicaFind tex orig rest

/-- One iteration of the replica loop of `pack_everything`.  Every queued
replica has `replica_of = some _` by construction (Rust `unwrap`s); the
`none` case is dead. -/
def replicaStep (pages : List TexturePage) (tex : SourceTexture) : List TexturePage :=
  match tex.replica_of with
  | some orig => replicaFind tex orig pages
  | none => pages

/-- Phase 2 of `pack_everything`: resolve the queued replicas in order. -/
def resolveReplicas (pages : List TexturePage) (reps : List SourceTexture) : List TexturePage :=
  reps.foldl replicaStep pages

/-- `TexturePacker::adjust_page_names`. -/
def TexturePacker.adjust_page_names (p : TexturePacker) : TexturePacker :=
  match p.pages with
  | [pg] => { p with pages := [{ pg with name := p.label }] }
  | _ => { p with pages := p.pages.mapIdx (fun i pg => { pg with name := p.label ++ "-" ++ toString i }) }

/-- `TexturePacker::pack_everything` (without the progress channel, which
never influences the computation). -/
def TexturePacker.pack_everything (p : TexturePacker) : Except String TexturePacker :=
  match phase1 p.label p.settings p.pages [] p.sources with
  | .error e => .error e
  | .ok (pages, reps) =>
    TexturePacker.adjust_page_names
      { p with sources := [], pages := resolveReplicas pages reps } |> .ok

/-! ### Claim-side definitions -/

/-- Indexed filter: keeps the elements whose absolute index satisfies `P`,
where `i` is the index of the first element of the list. -/
def filterIdx (P : Nat → Bool) : List Rect → Nat → List Rect
  | [], _ => []
  | x :: xs, i => if P i then x :: filterIdx P xs (i + 1) else filterIdx P xs (i + 1)

/-- Whether the pruning loop keeps the slot at (original) index `a`. -/
def pruneKeep (l : List Rect) (a : Nat) : Bool := !(pruneHit l a)

/-- The pruning pass as the amended claim describes it, as a single forward
scan: a slot is discarded exactly when it is `contains`-ed by a slot at an
index strictly below its predecessor (`prev.dropLast` = all earlier slots
except the immediately preceding one); `prev` accumulates the original
earlier slots whether or not they were kept, because the back-to-front
loop of the code has not yet removed any of them when it inspects them. -/
def pruneSpecGo (prev : List Rect) : List Rect → List Rect
  | [] => []
  | x :: rest =>
    if prev.dropLast.any (fun b => b.contains x) then pruneSpecGo (prev ++ [x]) rest
    else x :: pruneSpecGo (prev ++ [x]) rest

/-- Declarative description of the code's pruning pass. -/
def pruneSpec (l : List Rect) : List Rect := pruneSpecGo [] l

/-- The inner-loop hit test as claim C8 states it: the inner loop would
run over every index strictly below `a` (`0..a`), not `0..(a-1)`. -/
def pruneHitClaim (slots : List Rect) (a : Nat) : Bool :=
  (List.range a).any (fun b => (slots.getD b default).contains (slots.getD a default))

/-- One outer pruning iteration under claim C8's reading. -/
def pruneStepClaim (slots : List Rect) (a : Nat) : List Rect :=
  if pruneHitClaim slots a then slots.eraseIdx a else slots

/-- The pruning pass under claim C8's reading of the inner loop. -/
def pruneAuxClaim : List Rect → Nat → List Rect
  | slots, 0 => slots
  | slots, n + 1 => pruneAuxClaim (pruneStepClaim slots n) n

/-- The full pruning pass as claim C8 describes it. -/
def pruneClaim (slots : List Rect) : List Rect :=
  pruneAuxClaim slots slots.length

/-- The Distance policy order of claim C7: ascending distance-from-origin
(modelled by its square, see `Rect.distSq`), ties broken by ascending
area. -/
def distanceAreaLe (a b : Rect) : Prop :=
  a.distSq < b.distSq ∨ (a.distSq = b.distSq ∧ a.area ≤ b.area)

/-- The Area policy order of claim C7: ascending area, ties broken by
ascending distance-from-origin. -/
def areaDistanceLe (a b : Rect) : Prop :=
  a.area < b.area ∨ (a.area = b.area ∧ a.distSq ≤ b.distSq)

/-- The selected policy order of claim C7. -/
def policyLe (m : PackingMethod) (a b : Rect) : Prop :=
  match m with
  | .Distance => distanceAreaLe a b
  | .Area => areaDistanceLe a b

/-- "The synthesized slot lies to the right of the packed bounding box":
its left edge is the bounding box's width and it starts at the top. -/
def rightOfBounds (s : Rect) (bounds : Nat × Nat) : Prop :=
  s.x = bounds.1 ∧ s.y = 0

/-- "The synthesized slot lies below the packed bounding box": its top
edge is the bounding box's height and it starts at the left. -/
def belowBounds (s : Rect) (bounds : Nat × Nat) : Prop :=
  s.x = 0 ∧ s.y = bounds.2

/-- Claim C6's description of the dynamic-growth step, at a given bounding
box and probe rectangle: right of the bounds when
`bounds.width + r.width ≥ bounds.height + r.height`, otherwise below. -/
def claimC6At (bounds : Nat × Nat) (r : Rect) : Prop :=
  (wadd bounds.2 r.height ≤ wadd bounds.1 r.width →
    rightOfBounds (newSlot bounds r) bounds) ∧
  (¬ wadd bounds.2 r.height ≤ wadd bounds.1 r.width →
    belowBounds (newSlot bounds r) bounds)

instance (bounds : Nat × Nat) (r : Rect) : Decidable (claimC6At bounds r) := by
  unfold claimC6At rightOfBounds belowBounds
  infer_instance

/-- All four fields fit in `u32`: every rectangle the Rust program ever
builds satisfies this, since its fields are `u32` values. -/
def Rect.wf (r : Rect) : Prop :=
  r.x ≤ u32Max ∧ r.y ≤ u32Max ∧ r.width ≤ u32Max ∧ r.height ≤ u32Max

/-- Exact (unsaturated) geometric containment, used by the invariants. -/
def insideR (a b : Rect) : Prop :=
  b.x ≤ a.x ∧ b.y ≤ a.y ∧ a.x + a.width ≤ b.x + b.width ∧ a.y + a.height ≤ b.y + b.height

/-- Two rectangles do not intersect with positive area (in the sense of
the program's own `intersection`/`area` arithmetic). -/
def disjointR (a b : Rect) : Prop := (a.intersection b).area = 0

/-- Settings whose fixed page dimensions are genuine `u32` values (always
true for settings built by `generate_settings`, which bounds them by
`MAX_DIMENSIONS = 65535`). -/
def PackingSettings.wf (st : PackingSettings) : Prop :=
  match st.page_size with
  | some (w, h) => w ≤ u32Max ∧ h ≤ u32Max
  | none => True

instance (st : PackingSettings) : Decidable st.wf := by
  unfold PackingSettings.wf
  exact match st.page_size with
  | some (w, h) => inferInstanceAs (Decidable (w ≤ u32Max ∧ h ≤ u32Max))
  | none => inferInstanceAs (Decidable True)

/-- "Lies entirely within the rectangle `(0,0)-(width,height)` of its
page", for fixed-size settings; vacuous for dynamic pages. -/
def InPage (st : PackingSettings) (r : Rect) : Prop :=
  match st.page_size with
  | some (w, h) => r.x + r.width ≤ w ∧ r.y + r.height ≤ h
  | none => True

/-- The free-space invariant of a page: every free slot is well-formed,
lies within the fixed page (when the size is fixed), and overlaps no
placed rectangle; placed rectangles are well-formed, lie within the fixed
page, and are pairwise non-overlapping. -/
def PageGood (st : PackingSettings) (p : TexturePage) : Prop :=
  (∀ s ∈ p.free_slots, s.wf ∧ InPage st s ∧ ∀ t ∈ p.packed_rects, disjointR s t) ∧
  (∀ t ∈ p.packed_rects, t.wf ∧ InPage st t) ∧
  List.Pairwise disjointR p.packed_rects

/-- The placed rectangle has the probe's spacing-expanded dimensions,
either as supplied or with width and height swapped (rotated). -/
def sizeCorr (st : PackingSettings) (dims : Nat × Nat) (pd : PackingData) : Prop :=
  (pd.position.width = wadd dims.1 st.spacing ∧ pd.position.height = wadd dims.2 st.spacing) ∨
  (pd.position.width = wadd dims.2 st.spacing ∧ pd.position.height = wadd dims.1 st.spacing)

/-- Page states reachable by sequences of successful `pack_rectangle`
calls from a freshly created page, each call followed by the caller's
`textures.push` of the packed texture (as `pack_everything` does). -/
inductive PageReach (st : PackingSettings) : TexturePage → Prop where
  | init (name : String) : PageReach st (TexturePage.new name st.page_size)
  | step (p : TexturePage) (dims : Nat × Nat) (tex : SourceTexture) (pd : PackingData)
      (p' : TexturePage) : PageReach st p → p.pack_rectangle dims st = some (pd, p') →
      PageReach st (pushTexture p' tex pd)

/-- A texture with its placement forgotten (used to compare placed
textures with the supplied sources). -/
def strip (t : SourceTexture) : SourceTexture := { t with packing := none }

/-- All textures placed across a list of pages, in page order. -/
def allTex (pages : List TexturePage) : List SourceTexture :=
  (pages.map (fun pg => pg.textures)).flatten

/-- Two textures whose placements (when present) do not overlap with
positive area. -/
def TexDisjoint (t1 t2 : SourceTexture) : Prop :=
  ∀ p1 p2, t1.packing = some p1 → t2.packing = some p2 → disjointR p1.position p2.position

/-- The invariant of every page during phase 1 of `pack_everything`: the
free-space invariant holds, placed textures are pairwise non-overlapping,
and every texture is a placed non-replica whose position has the
spacing-expanded dimensions of the texture. -/
def P1Good (st : PackingSettings) (pg : TexturePage) : Prop :=
  PageGood st pg ∧ List.Pairwise TexDisjoint pg.textures ∧
  ∀ t ∈ pg.textures, t.replica_of = none ∧ ∃ pd, t.packing = some pd ∧
    sizeCorr st (t.dimensions.width, t.dimensions.height) pd

/-- Claim C1's no-overlap property restricted to non-replica textures (the
amended claim): all pairs of non-replica textures on one page have
non-overlapping placements. -/
def pageNoOverlapNR (pg : TexturePage) : Prop :=
  List.Pairwise
    (fun t1 t2 => t1.replica_of = none → t2.replica_of = none →
      ∀ p1 p2, t1.packing = some p1 → t2.packing = some p2 →
        (p1.position.intersection p2.position).area = 0)
    pg.textures

/-- The per-page texture facts that survive the replica phase: non-replica
textures are pairwise non-overlapping, and each is placed with the
spacing-expanded dimensions, well-formed, inside the fixed page. -/
def PTex (st : PackingSettings) (l : List SourceTexture) : Prop :=
  List.Pairwise (fun t1 t2 => t1.replica_of = none → t2.replica_of = none → TexDisjoint t1 t2) l ∧
  ∀ t ∈ l, t.replica_of = none → ∃ pd, t.packing = some pd ∧
    sizeCorr st (t.dimensions.width, t.dimensions.height) pd ∧
    pd.position.wf ∧ InPage st pd.position

/-- Executable check that two placed textures do not overlap (true when
either is unplaced). -/
def texOverlapFree (t1 t2 : SourceTexture) : Bool :=
  match t1.packing, t2.packing with
  | some p1, some p2 => decide ((p1.position.intersection p2.position).area = 0)
  | _, _ => true

/-- Claim C1's no-overlap property exactly as stated: ALL pairs of
textures on one page (replicas included) have non-overlapping
placements. -/
def pageNoOverlapAll (pg : TexturePage) : Bool :=
  decide (List.Pairwise (fun t1 t2 => texOverlapFree t1 t2 = true) pg.textures)

instance : Inhabited PackingData := ⟨⟨default, false⟩⟩

/-- The grid points covered by a rectangle (for the area-counting
argument). -/
def ptsOf (r : Rect) : Finset (Nat × Nat) :=
  Finset.Ico r.x (r.x + r.width) ×ˢ Finset.Ico r.y (r.y + r.height)

/-- The positions of the non-replica textures of a page. -/
def posNR (pg : TexturePage) : List Rect :=
  (pg.textures.filter (fun t => t.replica_of.isNone)).map
    (fun t => (t.packing.getD default).position)

/-- Claim C9, rendered in exact arithmetic, at a given packer: if at least
one non-replica texture is placed and the total packed area is non-zero,
then `0 < efficiency ≤ 100`.  `efficiency` is
`total_source_area / total_packed_area * 100` computed in `f64`; with a
positive denominator it is positive iff `0 < total_source_area` (an `f64`
quotient of positive values in this magnitude range never underflows to
zero) and is `≤ 100` iff `total_source_area ≤ total_packed_area`
(conversions and division are monotone and correctly rounded, and `100`
is exactly representable, so the quotient rounds past `100` exactly when
the exact quotient exceeds `1`). -/
def claimC9At (q : TexturePacker) : Prop :=
  ((∃ pg ∈ q.pages, ∃ t ∈ pg.textures, t.replica_of = none ∧ t.packing.isSome = true) ∧
    q.total_packed_area ≠ 0) →
  (0 < q.total_source_area ∧ q.total_source_area ≤ q.total_packed_area)

instance (q : TexturePacker) : Decidable (claimC9At q) := by
  unfold claimC9At
  infer_instance

/-- The run refuting C9 as stated: a single `0×0` texture with spacing 1
on a dynamic page.  The texture is placed (as a `1×1` spacing-expanded
rectangle, so the packed area is `1 ≠ 0`), but its own area — and hence
`total_source_area` and the efficiency — is `0`, violating
`0 < efficiency`. -/
def checkC9 : Bool :=
  match (TexturePacker.new "a" [⟨"z", "", Rect.new 0 0 0 0, none, none⟩]
      ⟨.Distance, 1, false, none⟩).pack_everything with
  | .ok q => decide (claimC9At q)
  | .error _ => true

instance : Inhabited TexturePacker :=
  ⟨⟨"", [], ⟨.Distance, 0, false, none⟩, []⟩⟩

/-- A concrete successful run used to exercise the amended C9: one `2×2`
texture, spacing `0`, dynamic page (the `error` branch is unreachable on
this input; `default` is a placeholder). -/
def qC9 : TexturePacker :=
  match (TexturePacker.new "a" [⟨"z", "", Rect.new 0 0 2 2, none, none⟩]
      ⟨.Distance, 0, false, none⟩).pack_everything with
  | .ok q => q
  | .error _ => default

/-! ### Generic list lemmas -/

theorem bool_ext {a b : Bool} (h : a = true ↔ b = true) : a = b := by
  cases a <;> cases b <;> simp_all

theorem getD_append_left {α : Type} [Inhabited α] (xs ys : List α) (k : Nat)
    (h : k < xs.length) : (xs ++ ys).getD k default = xs.getD k default := by
  simp [List.getD_eq_getElem?_getD, List.getElem?_append_left h]

theorem getD_append_at {α : Type} [Inhabited α] (xs : List α) (y : α) (ys : List α) :
    (xs ++ y :: ys).getD xs.length default = y := by
  induction xs with
  | nil => rfl
  | cons a as ih => simpa using ih

theorem getD_take {α : Type} [Inhabited α] (l : List α) (m k : Nat) (h : k < m) :
    (l.take m).getD k default = l.getD k default := by
  by_cases hk : k < l.length
  · have hk' : k < (l.take m).length := by simp; omega
    rw [List.getD_eq_getElem l default hk, List.getD_eq_getElem _ default hk',
      List.getElem_take]
  · have h1 : l.length ≤ k := by omega
    have h2 : (l.take m).length ≤ k := by simp; omega
    rw [List.getD_eq_default _ _ h1, List.getD_eq_default _ _ h2]

theorem eraseIdx_append_len {α : Type} (xs ys : List α) :
    (xs ++ ys).eraseIdx xs.length = xs ++ ys.eraseIdx 0 := by
  induction xs with
  | nil => simp
  | cons a as ih => simp [List.eraseIdx, ih]

theorem any_index {α : Type} [Inhabited α] (q : List α) (f : α → Bool) :
    q.any f = (List.range q.length).any (fun b => f (q.getD b default)) := by
  apply bool_ext
  simp only [List.any_eq_true, List.mem_range]
  constructor
  · rintro ⟨x, hx, hfx⟩
    rcases List.mem_iff_getElem.mp hx with ⟨i, hi, rfl⟩
    exact ⟨i, hi, by rwa [List.getD_eq_getElem q default hi]⟩
  · rintro ⟨i, hi, hfi⟩
    exact ⟨q.getD i default, by rw [List.getD_eq_getElem q default hi]; exact q.getElem_mem hi,
      hfi⟩

theorem getD_dropLast {α : Type} [Inhabited α] (l : List α) (k : Nat)
    (h : k < l.length - 1) : l.dropLast.getD k default = l.getD k default := by
  have h1 : k < l.dropLast.length := by simp; omega
  have h2 : k < l.length := by omega
  rw [List.getD_eq_getElem _ default h1, List.getD_eq_getElem _ default h2]
  exact List.getElem_dropLast ..

/-! ### The pruning pass: claim C8 -/

theorem filterIdx_append (P : Nat → Bool) (xs ys : List Rect) (i : Nat) :
    filterIdx P (xs ++ ys) i = filterIdx P xs i ++ filterIdx P ys (i + xs.length) := by
  induction xs generalizing i with
  | nil => simp [filterIdx]
  | cons a as ih =>
    show (if P i = true then a :: filterIdx P (as ++ ys) (i + 1) else filterIdx P (as ++ ys) (i + 1)) =
      (if P i = true then a :: filterIdx P as (i + 1) else filterIdx P as (i + 1)) ++
        filterIdx P ys (i + (as.length + 1))
    rw [ih (i + 1)]
    have harith : i + 1 + as.length = i + (as.length + 1) := by omega
    rw [harith]
    by_cases h : P i <;> simp [h]

theorem pruneHit_congr (l s : List Rect) (n : Nat) (hn : n < l.length) :
    pruneHit (l.take (n + 1) ++ s) n = pruneHit l n := by
  unfold pruneHit
  have hn1 : n < (l.take (n + 1)).length := by simp; omega
  have hA : (l.take (n + 1) ++ s).getD n default = l.getD n default := by
    rw [getD_append_left _ _ _ hn1, getD_take _ _ _ (by omega)]
  apply bool_ext
  simp only [List.any_eq_true, List.mem_range]
  constructor
  · rintro ⟨b, hb, hc⟩
    refine ⟨b, hb, ?_⟩
    rwa [getD_append_left _ _ _ (by simp; omega), getD_take _ _ _ (by omega), hA] at hc
  · rintro ⟨b, hb, hc⟩
    refine ⟨b, hb, ?_⟩
    rwa [getD_append_left _ _ _ (by simp; omega), getD_take _ _ _ (by omega), hA]

theorem pruneAux_take (l : List Rect) :
    ∀ n, n ≤ l.length → ∀ s, pruneAux (l.take n ++ s) n = filterIdx (pruneKeep l) (l.take n) 0 ++ s := by
  intro n
  induction n with
  | zero => intro _ s; simp [pruneAux, filterIdx]
  | succ n ih =>
    intro hn s
    have hnl : n < l.length := by omega
    have htake : l.take (n + 1) = l.take n ++ [l[n]] := (List.take_concat_get' l n hnl).symm
    have hlen : (l.take n).length = n := by simp; omega
    show pruneAux (pruneStep (l.take (n + 1) ++ s) n) n = _
    unfold pruneStep
    rw [pruneHit_congr l s n hnl]
    by_cases hhit : pruneHit l n
    · simp only [hhit, if_true]
      have herase : (l.take (n + 1) ++ s).eraseIdx n = l.take n ++ s := by
        rw [htake, List.append_assoc]
        have := eraseIdx_append_len (l.take n) ([l[n]] ++ s)
        rw [hlen] at this
        rw [this]
        rfl
      rw [herase, ih (by omega) s, htake, filterIdx_append]
      have : filterIdx (pruneKeep l) [l[n]] (0 + (l.take n).length) = [] := by
        simp only [filterIdx, hlen]
        have : pruneKeep l n = false := by simp [pruneKeep, hhit]
        simp [this]
      rw [this, List.append_nil]
    · simp only [hhit, if_false, Bool.false_eq_true]
      have hview : l.take (n + 1) ++ s = l.take n ++ (l[n] :: s) := by
        rw [htake, List.append_assoc]; rfl
      rw [hview, ih (by omega) (l[n] :: s), htake, filterIdx_append]
      have : filterIdx (pruneKeep l) [l[n]] (0 + (l.take n).length) = [l[n]] := by
        simp only [filterIdx, hlen]
        have : pruneKeep l n = true := by simp [pruneKeep, hhit]
        simp [this]
      rw [this]
      simp

theorem prune_eq_filterIdx (l : List Rect) : prune l = filterIdx (pruneKeep l) l 0 := by
  have := pruneAux_take l l.length (le_refl _) []
  simpa [prune, List.take_length] using this

theorem pruneSpecGo_eq (l : List Rect) :
    ∀ rest prev, prev ++ rest = l →
      pruneSpecGo prev rest = filterIdx (pruneKeep l) rest prev.length := by
  intro rest
  induction rest with
  | nil => intro prev _; simp [pruneSpecGo, filterIdx]
  | cons x rest ih =>
    intro prev hl
    have hcond : prev.dropLast.any (fun b => b.contains x) = pruneHit l prev.length := by
      unfold pruneHit
      rw [any_index]
      have hlen : prev.dropLast.length = prev.length - 1 := List.length_dropLast prev
      rw [hlen]
      have hx : l.getD prev.length default = x := by
        rw [← hl]; exact getD_append_at prev x rest
      apply bool_ext
      simp only [List.any_eq_true, List.mem_range]
      constructor
      · rintro ⟨b, hb, hc⟩
        refine ⟨b, hb, ?_⟩
        rw [hx, ← hl, getD_append_left _ _ _ (by omega)]
        rwa [getD_dropLast _ _ hb] at hc
      · rintro ⟨b, hb, hc⟩
        refine ⟨b, hb, ?_⟩
        rw [getD_dropLast _ _ hb]
        rwa [hx, ← hl, getD_append_left _ _ _ (by omega)] at hc
    show pruneSpecGo prev (x :: rest) = filterIdx (pruneKeep l) (x :: rest) prev.length
    unfold pruneSpecGo filterIdx
    rw [hcond]
    have hrec : pruneSpecGo (prev ++ [x]) rest = filterIdx (pruneKeep l) rest (prev.length + 1) := by
      have := ih (prev ++ [x]) (by rw [← hl]; simp)
      simpa using this
    by_cases hhit : pruneHit l prev.length
    · have : pruneKeep l prev.length = false := by simp [pruneKeep, hhit]
      simp [hhit, this, hrec]
    · have : pruneKeep l prev.length = true := by simp [pruneKeep]; simpa using hhit
      simp [hhit, this, hrec]

/-- C8 (amended): the pruning step of `pack_rectangle` iterates back to
front over the free rectangles and discards the one at index `a` exactly
when some rectangle at an index strictly below `a - 1` (the inner loop is
`0..(a-1)`, which skips the immediate predecessor `a - 1` itself)
position-aware `contains` it; kept rectangles keep their relative order. -/
theorem C8_amended_prune_characterization (l : List Rect) : prune l = pruneSpec l := by
  rw [prune_eq_filterIdx, pruneSpec, pruneSpecGo_eq l l [] rfl]
  rfl

/-- C8 counterexample: the claimed inner-loop range `0..a` would compare a
slot with its immediate predecessor; the code's range `0..(a-1)` does not.
On `[10×10 at origin, 5×5 at origin]` the code keeps the second slot even
though the first `contains` it, while the claimed iteration discards it. -/
theorem C8_counterexample :
    prune [Rect.new 0 0 10 10, Rect.new 0 0 5 5] =
      [Rect.new 0 0 10 10, Rect.new 0 0 5 5] ∧
    pruneClaim [Rect.new 0 0 10 10, Rect.new 0 0 5 5] = [Rect.new 0 0 10 10] := by
  constructor <;> rfl

/-! ### Candidate selection: claim C7 -/

theorem cmpMethod_not_gt (m : PackingMethod) (a b : Rect) :
    ¬ cmpMethod m a b = .gt ↔ policyLe m a b := by
  cases m <;>
    simp only [cmpMethod, Rect.cmp_by_distance, Rect.cmp_by_area, cmpNat, policyLe,
      distanceAreaLe, areaDistanceLe, Ordering.then] <;>
    split_ifs <;> simp_all <;> omega

theorem policyLe_trans (m : PackingMethod) (a b c : Rect)
    (h1 : policyLe m a b) (h2 : policyLe m b c) : policyLe m a c := by
  cases m <;>
    simp only [policyLe, distanceAreaLe, areaDistanceLe] at h1 h2 ⊢ <;> omega

theorem policyLe_total (m : PackingMethod) (a b : Rect) :
    policyLe m a b ∨ policyLe m b a := by
  cases m <;> simp only [policyLe, distanceAreaLe, areaDistanceLe] <;> omega

theorem pickFold_min (slots : List Rect) (m : PackingMethod) :
    ∀ (cs : List Nat) (c : Nat),
      cs.foldl
        (fun acc j =>
          if cmpMethod m (slots.getD acc default) (slots.getD j default) = .gt then j else acc)
        c ∈ c :: cs ∧
      ∀ d ∈ c :: cs,
        policyLe m
          (slots.getD
            (cs.foldl
              (fun acc j =>
                if cmpMethod m (slots.getD acc default) (slots.getD j default) = .gt then j
                else acc)
              c)
            default)
          (slots.getD d default) := by
  intro cs
  induction cs with
  | nil =>
    intro c
    refine ⟨List.mem_singleton_self c, ?_⟩
    intro d hd
    rcases List.mem_singleton.mp hd with rfl
    rcases policyLe_total m (slots.getD d default) (slots.getD d default) with h | h <;> exact h
  | cons j cs ih =>
    intro c
    set f := fun acc k =>
      if cmpMethod m (slots.getD acc default) (slots.getD k default) = .gt then k else acc with hf
    have hstep : (j :: cs).foldl f c = cs.foldl f (f c j) := rfl
    have hcj : f c j = c ∨ f c j = j := by
      rw [hf]; dsimp only; split_ifs <;> simp
    have hle : policyLe m (slots.getD (f c j) default) (slots.getD c default) ∧
        policyLe m (slots.getD (f c j) default) (slots.getD j default) := by
      rw [hf]; dsimp only
      by_cases hgt : cmpMethod m (slots.getD c default) (slots.getD j default) = .gt
      · simp only [hgt, if_true]
        have hjc : policyLe m (slots.getD j default) (slots.getD c default) := by
          rcases policyLe_total m (slots.getD c default) (slots.getD j default) with h | h
          · exact absurd hgt ((cmpMethod_not_gt m _ _).mpr h)
          · exact h
        refine ⟨hjc, ?_⟩
        rcases policyLe_total m (slots.getD j default) (slots.getD j default) with h | h <;> exact h
      · simp only [hgt, if_false]
        refine ⟨?_, (cmpMethod_not_gt m _ _).mp hgt⟩
        rcases policyLe_total m (slots.getD c default) (slots.getD c default) with h | h <;> exact h
    obtain ⟨hmem, hmin⟩ := ih (f c j)
    constructor
    · rw [hstep]
      rcases List.mem_cons.mp hmem with heq | hin
      · rcases hcj with h | h <;> rw [heq, h] <;> simp
      · exact List.mem_cons_of_mem _ (List.mem_cons_of_mem _ hin)
    · intro d hd
      rw [hstep]
      rcases List.mem_cons.mp hd with heq | hd'
      · rw [heq]
        exact policyLe_trans m _ _ _ (hmin (f c j) (List.mem_cons_self _ _)) hle.1
      · rcases List.mem_cons.mp hd' with heq | hd''
        · rw [heq]
          exact policyLe_trans m _ _ _ (hmin (f c j) (List.mem_cons_self _ _)) hle.2
        · exact hmin d (List.mem_cons_of_mem _ hd'')

/-- C7: the candidate chosen by `pack_rectangle` (and then removed from the
free set by `slots.eraseIdx` in `packCore`) is a candidate index that is
minimal under the selected policy: under `Distance`, ascending
distance-from-origin with ascending area as tie-break; under `Area`,
ascending area with ascending distance-from-origin as tie-break.  The
returned packing data is positioned at that slot's origin. -/
theorem C7_pick_minimal (slots : List Rect) (m : PackingMethod) (cands : List Nat)
    (page : TexturePage) (r0 : Rect) (hne : cands ≠ []) :
    pickIndex slots m cands ∈ cands ∧
    (∀ d ∈ cands,
      policyLe m (slots.getD (pickIndex slots m cands) default) (slots.getD d default)) ∧
    (packCore page slots cands r0 m).1.position.x =
      (slots.getD (pickIndex slots m cands) default).x ∧
    (packCore page slots cands r0 m).1.position.y =
      (slots.getD (pickIndex slots m cands) default).y := by
  match cands, hne with
  | c :: cs, _ =>
    obtain ⟨hmem, hmin⟩ := pickFold_min slots m cs c
    exact ⟨hmem, hmin, rfl, rfl⟩

/-- Witness for C7 at a concrete state: three free slots, all candidates,
Distance method; slot 2 (distance 0, area 16) beats slot 1 (distance 0,
area 81) and slot 0 (positive distance). -/
theorem C7_witness :
    pickIndex [Rect.new 5 5 4 4, Rect.new 0 0 9 9, Rect.new 0 0 4 4] .Distance [0, 1, 2] ∈
      ([0, 1, 2] : List Nat) ∧
    policyLe .Distance
      (([Rect.new 5 5 4 4, Rect.new 0 0 9 9, Rect.new 0 0 4 4] : List Rect).getD
        (pickIndex [Rect.new 5 5 4 4, Rect.new 0 0 9 9, Rect.new 0 0 4 4] .Distance [0, 1, 2])
        default)
      (([Rect.new 5 5 4 4, Rect.new 0 0 9 9, Rect.new 0 0 4 4] : List Rect).getD 1 default) := by
  have h := C7_pick_minimal [Rect.new 5 5 4 4, Rect.new 0 0 9 9, Rect.new 0 0 4 4] .Distance
    [0, 1, 2] default (Rect.new 0 0 3 3) (by decide)
  exact ⟨h.1, h.2.1 1 (by decide)⟩

/-! ### Geometry lemmas for the intersection/area arithmetic -/

theorem satMul_pos_iff (a b : Nat) : 0 < satMul a b ↔ 0 < a ∧ 0 < b := by
  rw [satMul, lt_min_iff]
  have : (0 < a * b) ↔ (0 < a ∧ 0 < b) := by
    rw [Nat.pos_iff_ne_zero, Nat.pos_iff_ne_zero, Nat.pos_iff_ne_zero, Nat.mul_ne_zero_iff]
  rw [this, u32Max]
  omega

theorem area_pos_iff (r : Rect) : 0 < r.area ↔ 0 < r.width ∧ 0 < r.height := by
  rw [Rect.area, satMul_pos_iff]

theorem interArea_pos_iff (a b : Rect) :
    0 < (a.intersection b).area ↔
      max a.x b.x < min (satAdd a.x a.width) (satAdd b.x b.width) ∧
      max a.y b.y < min (satAdd a.y a.height) (satAdd b.y b.height) := by
  rw [area_pos_iff]
  simp only [Rect.intersection]
  omega

theorem interArea_zero_iff (a b : Rect) :
    (a.intersection b).area = 0 ↔
      min (satAdd a.x a.width) (satAdd b.x b.width) ≤ max a.x b.x ∨
      min (satAdd a.y a.height) (satAdd b.y b.height) ≤ max a.y b.y := by
  have h := interArea_pos_iff a b
  constructor
  · intro hz
    by_contra hc
    push_neg at hc
    have := h.mpr ⟨hc.1, hc.2⟩
    omega
  · intro hle
    by_contra hc
    have hpos : 0 < (a.intersection b).area := by omega
    have := h.mp hpos
    omega

theorem intersection_comm (a b : Rect) : a.intersection b = b.intersection a := by
  simp only [Rect.intersection]
  rw [Nat.max_comm b.x a.x, Nat.max_comm b.y a.y,
    Nat.min_comm (satAdd b.x b.width) (satAdd a.x a.width),
    Nat.min_comm (satAdd b.y b.height) (satAdd a.y a.height)]

theorem interArea_comm (a b : Rect) : (a.intersection b).area = (b.intersection a).area := by
  rw [intersection_comm]

/-! ### Packed bounds dominate every placed edge -/

theorem packed_bounds_fold (l : List Rect) :
    ∀ acc : Nat × Nat,
      (∀ r ∈ l,
        satAdd r.x r.width ≤
          (l.foldl (fun acc r => (max (satAdd r.x r.width) acc.1, max (satAdd r.y r.height) acc.2)) acc).1 ∧
        satAdd r.y r.height ≤
          (l.foldl (fun acc r => (max (satAdd r.x r.width) acc.1, max (satAdd r.y r.height) acc.2)) acc).2) ∧
      acc.1 ≤ (l.foldl (fun acc r => (max (satAdd r.x r.width) acc.1, max (satAdd r.y r.height) acc.2)) acc).1 ∧
      acc.2 ≤ (l.foldl (fun acc r => (max (satAdd r.x r.width) acc.1, max (satAdd r.y r.height) acc.2)) acc).2 := by
  induction l with
  | nil => intro acc; exact ⟨fun r hr => absurd hr (List.not_mem_nil r), le_refl _, le_refl _⟩
  | cons a l ih =>
    intro acc
    obtain ⟨hall, h1, h2⟩ := ih (max (satAdd a.x a.width) acc.1, max (satAdd a.y a.height) acc.2)
    refine ⟨?_, ?_, ?_⟩
    · intro r hr
      rcases List.mem_cons.mp hr with heq | hin
      · subst heq
        exact ⟨le_trans (le_max_left _ _) h1, le_trans (le_max_left _ _) h2⟩
      · exact hall r hin
    · exact le_trans (le_max_right _ _) h1
    · exact le_trans (le_max_right _ _) h2

theorem packed_bounds_ge (p : TexturePage) :
    ∀ r ∈ p.packed_rects,
      satAdd r.x r.width ≤ p.packed_bounds.1 ∧ satAdd r.y r.height ≤ p.packed_bounds.2 := by
  intro r hr
  exact (packed_bounds_fold p.packed_rects (0, 0)).1 r hr

/-- The slot synthesized by the dynamic-growth branch never overlaps a
placed rectangle: it starts at or beyond the packed bounding box. -/
theorem newSlot_disjoint (p : TexturePage) (r0 : Rect) :
    ∀ t ∈ p.packed_rects, ((newSlot p.packed_bounds r0).intersection t).area = 0 := by
  intro t ht
  obtain ⟨hx, hy⟩ := packed_bounds_ge p t ht
  rw [interArea_zero_iff]
  unfold newSlot
  split_ifs with h
  · right
    simp only [Rect.new]
    exact le_trans (min_le_right _ _) (le_trans hy (le_max_left _ _))
  · left
    simp only [Rect.new]
    exact le_trans (min_le_right _ _) (le_trans hx (le_max_left _ _))

/-! ### The dynamic-growth step: claim C6 -/

/-- C6 counterexample: with packed bounds `(10, 10)` and probe `5×5`,
`bounds.width + r.width ≥ bounds.height + r.height` holds, yet the slot the
code synthesizes is `(0, 10, 10, 5)` — below the bounds, not to the right
as the claim states. -/
theorem C6_counterexample :
    decide (claimC6At (10, 10) (Rect.new 0 0 5 5)) = false := by rfl

/-- C6 (amended): in `pack_rectangle` on a dynamic-size page with no viable
candidate slot, exactly one new free rectangle extending the packed
bounding box is appended (and becomes the sole candidate); it is placed
BELOW the bounds when `bounds.width + r.width ≥ bounds.height + r.height`,
otherwise to the RIGHT of the bounds — the opposite orientation of the
original claim.  The synthesized slot can contain the probe and does not
overlap any placed rectangle. -/
theorem C6_amended_growth (page : TexturePage) (dims : Nat × Nat) (st : PackingSettings)
    (hdyn : st.page_size = none)
    (hempty :
      candList page.free_slots
        (Rect.new 0 0 (wadd dims.1 st.spacing) (wadd dims.2 st.spacing))
        (Rect.new 0 0 (wadd dims.2 st.spacing) (wadd dims.1 st.spacing)) st.rotation = []) :
    page.pack_rectangle dims st =
      some (packCore page
        (page.free_slots ++
          [newSlot page.packed_bounds (Rect.new 0 0 (wadd dims.1 st.spacing) (wadd dims.2 st.spacing))])
        [page.free_slots.length]
        (Rect.new 0 0 (wadd dims.1 st.spacing) (wadd dims.2 st.spacing)) st.method) ∧
    (∀ bounds r,
      (wadd bounds.2 r.height ≤ wadd bounds.1 r.width → belowBounds (newSlot bounds r) bounds) ∧
      (¬ wadd bounds.2 r.height ≤ wadd bounds.1 r.width → rightOfBounds (newSlot bounds r) bounds)) ∧
    (newSlot page.packed_bounds
        (Rect.new 0 0 (wadd dims.1 st.spacing) (wadd dims.2 st.spacing))).can_contain
      (Rect.new 0 0 (wadd dims.1 st.spacing) (wadd dims.2 st.spacing)) = true ∧
    (∀ t ∈ page.packed_rects,
      ((newSlot page.packed_bounds
          (Rect.new 0 0 (wadd dims.1 st.spacing) (wadd dims.2 st.spacing))).intersection t).area = 0) := by
  refine ⟨?_, ?_, ?_, newSlot_disjoint page _⟩
  · unfold TexturePage.pack_rectangle
    dsimp only
    rw [hempty, hdyn]
    simp
  · intro bounds r
    constructor <;> intro h <;>
      simp [newSlot, belowBounds, rightOfBounds, Rect.new, h]
  · unfold newSlot Rect.can_contain
    split_ifs <;> simp [Rect.new]

/-- Witness for C6 (amended) at a concrete dynamic page with one placed
`10×10` texture and no free slots. -/
theorem C6_amended_witness :
    (TexturePage.mk "p"
        [⟨"a", "", Rect.new 0 0 10 10, none, some ⟨Rect.new 0 0 10 10, false⟩⟩] none
        []).pack_rectangle (5, 5) ⟨.Distance, 0, false, none⟩ =
      some (packCore
        (TexturePage.mk "p"
          [⟨"a", "", Rect.new 0 0 10 10, none, some ⟨Rect.new 0 0 10 10, false⟩⟩] none [])
        [newSlot (10, 10) (Rect.new 0 0 5 5)] [0] (Rect.new 0 0 5 5) .Distance) := by
  have h := C6_amended_growth
    (TexturePage.mk "p"
      [⟨"a", "", Rect.new 0 0 10 10, none, some ⟨Rect.new 0 0 10 10, false⟩⟩] none [])
    (5, 5) ⟨.Distance, 0, false, none⟩ rfl (by rfl)
  have h1 := h.1
  simpa using h1

/-! ### Geometry: containment, disjointness, slicing -/

theorem wadd_le_max (a b : Nat) : wadd a b ≤ u32Max := by
  unfold wadd u32Mod u32Max; omega

theorem satAdd_le_max (a b : Nat) : satAdd a b ≤ u32Max := min_le_right _ _

theorem default_inter_area (r : Rect) : ((default : Rect).intersection r).area = 0 := by
  show ((Rect.mk 0 0 0 0).intersection r).area = 0
  rw [interArea_zero_iff]
  left
  simp only [satAdd]
  omega

theorem disjointR_symm {a b : Rect} (h : disjointR a b) : disjointR b a := by
  unfold disjointR at *
  rwa [interArea_comm]

theorem satAdd_mono {a b c d : Nat} (h : a + b ≤ c + d) : satAdd a b ≤ satAdd c d := by
  unfold satAdd
  omega

theorem disjoint_mono (a' a b : Rect) (hin : insideR a' a) (h : disjointR a b) :
    disjointR a' b := by
  by_contra hc
  have hpos : 0 < (a'.intersection b).area := by
    unfold disjointR at hc
    omega
  rw [interArea_pos_iff] at hpos
  unfold insideR at hin
  unfold disjointR at h
  have hpos2 : 0 < (a.intersection b).area := by
    rw [interArea_pos_iff]
    constructor
    · calc max a.x b.x ≤ max a'.x b.x := max_le_max hin.1 (le_refl _)
        _ < min (satAdd a'.x a'.width) (satAdd b.x b.width) := hpos.1
        _ ≤ min (satAdd a.x a.width) (satAdd b.x b.width) :=
          min_le_min (satAdd_mono hin.2.2.1) (le_refl _)
    · calc max a.y b.y ≤ max a'.y b.y := max_le_max hin.2.1 (le_refl _)
        _ < min (satAdd a'.y a'.height) (satAdd b.y b.height) := hpos.2
        _ ≤ min (satAdd a.y a.height) (satAdd b.y b.height) :=
          min_le_min (satAdd_mono hin.2.2.2) (le_refl _)
  omega

theorem insideR_trans (a b c : Rect) (h1 : insideR a b) (h2 : insideR b c) : insideR a c := by
  unfold insideR at h1 h2 ⊢
  omega

theorem slice_out_spec (s r : Rect) (hws : s.wf) (hwr : r.wf) :
    ∀ p ∈ s.slice_out r, p.wf ∧ insideR p s := by
  intro p hp
  unfold Rect.slice_out at hp
  split_ifs at hp with hov
  · rw [List.mem_filter] at hp
    obtain ⟨hmem, harea⟩ := hp
    have hpos : 0 < p.area := by simpa using harea
    rw [area_pos_iff] at hpos
    have hov' : 0 < (s.intersection r).area := hov
    rw [interArea_pos_iff] at hov'
    unfold Rect.wf at hws hwr ⊢
    unfold insideR
    simp only [List.mem_cons, List.not_mem_nil, or_false] at hmem
    obtain ⟨hx, hy⟩ := hov'
    rw [max_lt_iff, lt_min_iff] at hx hy
    simp only [satAdd] at hx hy
    rcases hmem with rfl | rfl | rfl | rfl <;> simp only [satAdd] at hpos ⊢ <;> omega
  · cases hp

theorem slice_out_disjoint (s r : Rect) (hwr : r.wf) :
    ∀ p ∈ s.slice_out r, disjointR p r := by
  intro p hp
  unfold Rect.slice_out at hp
  split_ifs at hp with hov
  · rw [List.mem_filter] at hp
    obtain ⟨hmem, harea⟩ := hp
    have hpos : 0 < p.area := by simpa using harea
    rw [area_pos_iff] at hpos
    have hov' : 0 < (s.intersection r).area := hov
    rw [interArea_pos_iff] at hov'
    unfold Rect.wf at hwr
    unfold disjointR
    rw [interArea_zero_iff]
    simp only [List.mem_cons, List.not_mem_nil, or_false] at hmem
    obtain ⟨hx, hy⟩ := hov'
    rw [max_lt_iff, lt_min_iff] at hx hy
    simp only [satAdd] at hx hy
    rcases hmem with rfl | rfl | rfl | rfl <;> simp only [satAdd] at hpos ⊢ <;> omega
  · cases hp

/-! ### The reconciliation and pruning loops preserve the invariants -/

theorem reconcile_pres (r2 : Rect) (Q : Rect → Prop)
    (hQ : ∀ e, Q e → ∀ p ∈ e.slice_out r2, Q p) :
    ∀ n slots, (∀ a ∈ slots, Q a) → ∀ a ∈ reconcile r2 slots n, Q a := by
  intro n
  induction n with
  | zero => intro slots h a ha; exact h a ha
  | succ n ih =>
    intro slots h a ha
    refine ih (reconStep r2 slots n) ?_ a ha
    intro b hb
    unfold reconStep at hb
    split_ifs at hb with hov
    · rw [List.mem_append] at hb
      rcases hb with hb | hb
      · exact h b (List.eraseIdx_subset _ _ hb)
      · by_cases hn : n < slots.length
        · have hmem : slots.getD n default ∈ slots := by
            rw [List.getD_eq_getElem _ _ hn]
            exact List.getElem_mem hn
          exact hQ _ (h _ hmem) b hb
        · rw [List.getD_eq_default _ _ (by omega)] at hov
          have := default_inter_area r2
          omega
    · exact h b hb

theorem reconcile_disjoint (r2 : Rect) (hwr : r2.wf) :
    ∀ n slots, (∀ a ∈ slots.drop n, disjointR a r2) →
      ∀ a ∈ reconcile r2 slots n, disjointR a r2 := by
  intro n
  induction n with
  | zero => intro slots h a ha; exact h a (by simpa using ha)
  | succ n ih =>
    intro slots h a ha
    refine ih (reconStep r2 slots n) ?_ a ha
    intro b hb
    unfold reconStep at hb
    split_ifs at hb with hov
    · by_cases hn : n < slots.length
      · have hdecomp : ((slots.eraseIdx n ++ (slots.getD n default).slice_out r2).drop n)
            = slots.drop (n + 1) ++ (slots.getD n default).slice_out r2 := by
          rw [List.eraseIdx_eq_take_drop_succ, List.append_assoc]
          exact List.drop_left' (by simp; omega)
        rw [hdecomp, List.mem_append] at hb
        rcases hb with hb | hb
        · exact h b hb
        · exact slice_out_disjoint _ _ hwr b hb
      · rw [List.getD_eq_default _ _ (by omega)] at hov
        have := default_inter_area r2
        omega
    · by_cases hn : n < slots.length
      · have hdrop : slots.drop n = slots[n] :: slots.drop (n + 1) :=
          List.drop_eq_getElem_cons hn
        rw [hdrop, List.mem_cons] at hb
        rcases hb with heq | hb'
        · rw [heq]
          unfold disjointR
          rw [List.getD_eq_getElem _ _ hn] at hov
          omega
        · exact h b hb'
      · have hnil : slots.drop n = [] := List.drop_eq_nil_of_le (by omega)
        rw [hnil] at hb
        cases hb

theorem pruneAux_subset : ∀ n (slots : List Rect), ∀ a ∈ pruneAux slots n, a ∈ slots := by
  intro n
  induction n with
  | zero => intro slots a ha; exact ha
  | succ n ih =>
    intro slots a ha
    have hmem := ih (pruneStep slots n) a ha
    unfold pruneStep at hmem
    split_ifs at hmem
    · exact List.eraseIdx_subset _ _ hmem
    · exact hmem

theorem prune_subset (slots : List Rect) : ∀ a ∈ prune slots, a ∈ slots :=
  pruneAux_subset slots.length slots

/-! ### The candidate list and the growth slot -/

theorem insideR_refl (a : Rect) : insideR a a := by
  unfold insideR
  omega

theorem rotate_width (r : Rect) : r.rotate.width = r.height := rfl

theorem rotate_height (r : Rect) : r.rotate.height = r.width := rfl

theorem candidateIdxs_spec (slots : List Rect) (r : Rect) :
    ∀ i ∈ candidateIdxs slots r,
      i < slots.length ∧ (slots.getD i default).can_contain r = true := by
  intro i hi
  unfold candidateIdxs at hi
  rw [List.mem_filter, List.mem_range] at hi
  exact hi

theorem candList_spec (slots : List Rect) (r rRot : Rect) (rot : Bool) :
    ∀ i ∈ candList slots r rRot rot,
      i < slots.length ∧
        ((slots.getD i default).can_contain r = true ∨
         (slots.getD i default).can_contain rRot = true) := by
  intro i hi
  unfold candList at hi
  by_cases hrot : rot = true
  · rw [if_pos hrot, List.mem_append] at hi
    rcases hi with hi | hi
    · have h := candidateIdxs_spec slots r i hi
      exact ⟨h.1, Or.inl h.2⟩
    · rw [List.mem_filter, List.mem_range, Bool.and_eq_true] at hi
      exact ⟨hi.1, Or.inr hi.2.1⟩
  · rw [if_neg hrot] at hi
    have h := candidateIdxs_spec slots r i hi
    exact ⟨h.1, Or.inl h.2⟩

theorem newSlot_wf (bounds : Nat × Nat) (r : Rect) (hb1 : bounds.1 ≤ u32Max)
    (hb2 : bounds.2 ≤ u32Max) (hw : r.width ≤ u32Max) (hh : r.height ≤ u32Max) :
    (newSlot bounds r).wf := by
  unfold newSlot Rect.wf Rect.new
  split_ifs <;> simp only <;> omega

theorem newSlot_can_contain (bounds : Nat × Nat) (r : Rect) :
    (newSlot bounds r).can_contain r = true := by
  unfold newSlot Rect.can_contain Rect.new
  split_ifs <;> simp

theorem packed_bounds_wf (p : TexturePage) :
    p.packed_bounds.1 ≤ u32Max ∧ p.packed_bounds.2 ≤ u32Max := by
  unfold TexturePage.packed_bounds
  generalize p.packed_rects = l
  suffices h : ∀ (l : List Rect) (acc : Nat × Nat), acc.1 ≤ u32Max → acc.2 ≤ u32Max →
      (l.foldl (fun acc r => (max (satAdd r.x r.width) acc.1, max (satAdd r.y r.height) acc.2)) acc).1 ≤ u32Max ∧
      (l.foldl (fun acc r => (max (satAdd r.x r.width) acc.1, max (satAdd r.y r.height) acc.2)) acc).2 ≤ u32Max by
    exact h l (0, 0) (Nat.zero_le _) (Nat.zero_le _)
  intro l
  induction l with
  | nil => intro acc h1 h2; exact ⟨h1, h2⟩
  | cons a l ih =>
    intro acc h1 h2
    exact ih _ (by simp only [max_le_iff]; exact ⟨satAdd_le_max _ _, h1⟩)
      (by simp only [max_le_iff]; exact ⟨satAdd_le_max _ _, h2⟩)

theorem pushTexture_packed (p : TexturePage) (tex : SourceTexture) (pd : PackingData) :
    (pushTexture p tex pd).packed_rects = p.packed_rects ++ [pd.position] := by
  unfold pushTexture TexturePage.packed_rects
  simp

/-! ### The placement core preserves the free-space invariants -/

theorem packCore_spec (slots : List Rect) (cands : List Nat)
    (r0 : Rect) (m : PackingMethod) (placed : List Rect)
    (hne : cands ≠ [])
    (hlt : ∀ i ∈ cands, i < slots.length)
    (hcan : ∀ i ∈ cands, (slots.getD i default).can_contain r0 = true ∨
      (slots.getD i default).can_contain r0.rotate = true)
    (hr0 : r0.wf)
    (hslots : ∀ s ∈ slots, s.wf ∧ ∀ t ∈ placed, disjointR s t) :
    (placedRect slots m cands r0).wf ∧
    insideR (placedRect slots m cands r0) (pickedRect slots m cands) ∧
    pickedRect slots m cands ∈ slots ∧
    (∀ t ∈ placed, disjointR (placedRect slots m cands r0) t) ∧
    (∀ s ∈ newFree slots m cands r0,
      s.wf ∧ (∃ s0 ∈ slots, insideR s s0) ∧ (∀ t ∈ placed, disjointR s t) ∧
        disjointR s (placedRect slots m cands r0)) ∧
    ((packRot slots m cands r0 = false ∧ (placedRect slots m cands r0).width = r0.width ∧
        (placedRect slots m cands r0).height = r0.height) ∨
     (packRot slots m cands r0 = true ∧ (placedRect slots m cands r0).width = r0.height ∧
        (placedRect slots m cands r0).height = r0.width)) := by
  have hic : pickIndex slots m cands ∈ cands := by
    match cands, hne with
    | c :: cs, _ => exact (pickFold_min slots m cs c).1
  have hilt : pickIndex slots m cands < slots.length := hlt _ hic
  have hpickmem : pickedRect slots m cands ∈ slots := by
    unfold pickedRect
    rw [List.getD_eq_getElem _ _ hilt]
    exact List.getElem_mem hilt
  obtain ⟨hpickwf, hpickdisj⟩ := hslots _ hpickmem
  have hfits : (pickedRect slots m cands).can_contain
      (if packRot slots m cands r0 then r0.rotate else r0) = true := by
    unfold packRot
    by_cases hcc : (pickedRect slots m cands).can_contain r0 = true
    · simp [hcc]
    · simp only [hcc, Bool.not_false, if_true]
      rcases hcan _ hic with h | h
      · exact absurd h hcc
      · exact h
  have hplaced : ∀ b : Bool, packRot slots m cands r0 = b →
      placedRect slots m cands r0 =
        Rect.mk (pickedRect slots m cands).x (pickedRect slots m cands).y
          (if b then r0.height else r0.width) (if b then r0.width else r0.height) := by
    intro b hb
    unfold placedRect
    rw [hb]
    cases b <;> rfl
  have hr2wf : (placedRect slots m cands r0).wf := by
    unfold Rect.wf at hpickwf hr0
    cases hrot : packRot slots m cands r0 <;>
      rw [hplaced _ hrot] <;>
      refine ⟨?_, ?_, ?_, ?_⟩ <;> simp only [if_true, if_false, Bool.false_eq_true] <;> omega
  have hr2in : insideR (placedRect slots m cands r0) (pickedRect slots m cands) := by
    unfold Rect.can_contain at hfits
    rw [Bool.and_eq_true, decide_eq_true_eq, decide_eq_true_eq] at hfits
    cases hrot : packRot slots m cands r0 <;>
      rw [hplaced _ hrot] <;>
      rw [hrot] at hfits <;>
      unfold insideR <;>
      simp only [if_true, if_false, Bool.false_eq_true, rotate_width, rotate_height] at hfits ⊢ <;>
      omega
  have hr2disj : ∀ t ∈ placed, disjointR (placedRect slots m cands r0) t :=
    fun t ht => disjoint_mono _ _ _ hr2in (hpickdisj t ht)
  refine ⟨hr2wf, hr2in, hpickmem, hr2disj, ?_, ?_⟩
  · -- the new free slots
    intro s hs
    unfold newFree at hs
    have hs3 := prune_subset _ s hs
    -- Q is preserved through the reconciliation
    have hQ2 : ∀ a ∈ (slots.eraseIdx (pickIndex slots m cands) ++
        (pickedRect slots m cands).slice_out (placedRect slots m cands r0)),
        a.wf ∧ (∃ s0 ∈ slots, insideR a s0) ∧ ∀ t ∈ placed, disjointR a t := by
      intro a ha
      rw [List.mem_append] at ha
      rcases ha with ha | ha
      · have hmem := List.eraseIdx_subset _ _ ha
        obtain ⟨hwf, hdisj⟩ := hslots a hmem
        exact ⟨hwf, ⟨a, hmem, insideR_refl a⟩, hdisj⟩
      · obtain ⟨hwf, hin⟩ := slice_out_spec _ _ hpickwf hr2wf a ha
        exact ⟨hwf, ⟨pickedRect slots m cands, hpickmem, hin⟩,
          fun t ht => disjoint_mono _ _ _ hin (hpickdisj t ht)⟩
    have hQ3 : ∀ a ∈ reconcileAll (placedRect slots m cands r0)
        (slots.eraseIdx (pickIndex slots m cands) ++
          (pickedRect slots m cands).slice_out (placedRect slots m cands r0)),
        a.wf ∧ (∃ s0 ∈ slots, insideR a s0) ∧ ∀ t ∈ placed, disjointR a t := by
      refine reconcile_pres _ _ ?_ _ _ hQ2
      intro e hQe p hp
      obtain ⟨hwf, hin⟩ := slice_out_spec _ _ hQe.1 hr2wf p hp
      obtain ⟨s0, hs0, hins0⟩ := hQe.2.1
      exact ⟨hwf, ⟨s0, hs0, insideR_trans _ _ _ hin hins0⟩,
        fun t ht => disjoint_mono _ _ _ hin (hQe.2.2 t ht)⟩
    have hD3 : ∀ a ∈ reconcileAll (placedRect slots m cands r0)
        (slots.eraseIdx (pickIndex slots m cands) ++
          (pickedRect slots m cands).slice_out (placedRect slots m cands r0)),
        disjointR a (placedRect slots m cands r0) := by
      refine reconcile_disjoint _ hr2wf _ _ ?_
      intro a ha
      rw [List.drop_length] at ha
      cases ha
    obtain ⟨hwf, hex, hdisj⟩ := hQ3 s hs3
    exact ⟨hwf, hex, hdisj, hD3 s hs3⟩
  · -- the size correspondence
    cases hrot : packRot slots m cands r0
    · left
      rw [hplaced _ hrot]
      exact ⟨rfl, rfl, rfl⟩
    · right
      rw [hplaced _ hrot]
      exact ⟨rfl, rfl, rfl⟩

theorem InPage_mono (st : PackingSettings) (a b : Rect) (hin : insideR a b)
    (h : InPage st b) : InPage st a := by
  unfold InPage at h ⊢
  unfold insideR at hin
  cases hps : st.page_size with
  | none => simp only [hps]
  | some wh =>
    obtain ⟨w, v⟩ := wh
    simp only [hps] at h ⊢
    omega

theorem InPage_dyn (st : PackingSettings) (hdyn : st.page_size = none) (r : Rect) :
    InPage st r := by
  unfold InPage
  simp only [hdyn]

theorem packCore_push_good (st : PackingSettings) (page : TexturePage) (tex : SourceTexture)
    (slots : List Rect) (cands : List Nat) (r0 : Rect) (m : PackingMethod)
    (hne : cands ≠ [])
    (hlt : ∀ i ∈ cands, i < slots.length)
    (hcan : ∀ i ∈ cands, (slots.getD i default).can_contain r0 = true ∨
      (slots.getD i default).can_contain r0.rotate = true)
    (hr0 : r0.wf)
    (hslots : ∀ s ∈ slots, s.wf ∧ InPage st s ∧ ∀ t ∈ page.packed_rects, disjointR s t)
    (hplaced : ∀ t ∈ page.packed_rects, t.wf ∧ InPage st t)
    (hpair : List.Pairwise disjointR page.packed_rects) :
    PageGood st (pushTexture (packCore page slots cands r0 m).2 tex (packCore page slots cands r0 m).1) ∧
    (((packCore page slots cands r0 m).1.rotated = false ∧
        (packCore page slots cands r0 m).1.position.width = r0.width ∧
        (packCore page slots cands r0 m).1.position.height = r0.height) ∨
     ((packCore page slots cands r0 m).1.rotated = true ∧
        (packCore page slots cands r0 m).1.position.width = r0.height ∧
        (packCore page slots cands r0 m).1.position.height = r0.width)) ∧
    (pushTexture (packCore page slots cands r0 m).2 tex (packCore page slots cands r0 m).1).textures =
      page.textures ++ [{ tex with packing := some (packCore page slots cands r0 m).1 }] ∧
    (pushTexture (packCore page slots cands r0 m).2 tex (packCore page slots cands r0 m).1).size =
      page.size := by
  obtain ⟨hr2wf, hr2in, hpickmem, hr2disj, hfree, hcorr⟩ :=
    packCore_spec slots cands r0 m page.packed_rects hne hlt hcan hr0
      (fun s hs => ⟨(hslots s hs).1, (hslots s hs).2.2⟩)
  have hpickin : InPage st (pickedRect slots m cands) := (hslots _ hpickmem).2.1
  have hr2page : InPage st (placedRect slots m cands r0) := InPage_mono st _ _ hr2in hpickin
  have hpacked : (pushTexture (packCore page slots cands r0 m).2 tex
      (packCore page slots cands r0 m).1).packed_rects =
      page.packed_rects ++ [(placedRect slots m cands r0)] := by
    rw [pushTexture_packed]
    rfl
  refine ⟨⟨?_, ?_, ?_⟩, ?_, rfl, rfl⟩
  · -- free slots of the new page state
    intro s hs
    have hs' : s ∈ newFree slots m cands r0 := hs
    obtain ⟨hwf, ⟨s0, hs0, hins0⟩, hdisj, hdisj2⟩ := hfree s hs'
    refine ⟨hwf, InPage_mono st _ _ hins0 (hslots s0 hs0).2.1, ?_⟩
    rw [hpacked]
    intro t ht
    rw [List.mem_append, List.mem_singleton] at ht
    rcases ht with ht | rfl
    · exact hdisj t ht
    · exact hdisj2
  · -- placed rectangles
    rw [hpacked]
    intro t ht
    rw [List.mem_append, List.mem_singleton] at ht
    rcases ht with ht | rfl
    · exact hplaced t ht
    · exact ⟨hr2wf, hr2page⟩
  · -- pairwise disjointness
    rw [hpacked, List.pairwise_append]
    refine ⟨hpair, List.pairwise_singleton _ _, ?_⟩
    intro a ha b hb
    rw [List.mem_singleton] at hb
    subst hb
    exact disjointR_symm (hr2disj a ha)
  · exact hcorr

/-- Success of `pack_rectangle` followed by the caller's push preserves the
page invariant; the placed rectangle has the spacing-expanded probe
dimensions, possibly swapped when `rotated`. -/
theorem pack_push_good (st : PackingSettings) (page : TexturePage)
    (dims : Nat × Nat) (tex : SourceTexture) (pd : PackingData) (page' : TexturePage)
    (hgood : PageGood st page)
    (heq : page.pack_rectangle dims st = some (pd, page')) :
    PageGood st (pushTexture page' tex pd) ∧
    sizeCorr st dims pd ∧
    (pushTexture page' tex pd).textures = page.textures ++ [{ tex with packing := some pd }] ∧
    (pushTexture page' tex pd).size = page.size := by
  obtain ⟨hfree, hplaced, hpair⟩ := hgood
  have hr0wf : (Rect.new 0 0 (wadd dims.1 st.spacing) (wadd dims.2 st.spacing)).wf := by
    unfold Rect.wf
    refine ⟨?_, ?_, ?_, ?_⟩
    · show (0 : Nat) ≤ u32Max
      omega
    · show (0 : Nat) ≤ u32Max
      omega
    · show wadd dims.1 st.spacing ≤ u32Max
      exact wadd_le_max _ _
    · show wadd dims.2 st.spacing ≤ u32Max
      exact wadd_le_max _ _
  unfold TexturePage.pack_rectangle at heq
  dsimp only at heq
  split at heq
  · exact Option.noConfusion heq
  · -- dynamic growth branch
    rename_i hempty hdyn
    rw [Option.some_inj] at heq
    have hlen : 0 < (page.free_slots ++
        [newSlot page.packed_bounds (Rect.new 0 0 (wadd dims.1 st.spacing) (wadd dims.2 st.spacing))]).length := by
      simp
    have hb := packed_bounds_wf page
    have h := packCore_push_good st page tex
      (page.free_slots ++ [newSlot page.packed_bounds (Rect.new 0 0 (wadd dims.1 st.spacing) (wadd dims.2 st.spacing))])
      [(page.free_slots ++ [newSlot page.packed_bounds (Rect.new 0 0 (wadd dims.1 st.spacing) (wadd dims.2 st.spacing))]).length - 1]
      (Rect.new 0 0 (wadd dims.1 st.spacing) (wadd dims.2 st.spacing)) st.method
      (by simp)
      (by intro i hi; rw [List.mem_singleton] at hi; omega)
      (by
        intro i hi
        rw [List.mem_singleton] at hi
        subst hi
        left
        have hidx : (page.free_slots ++
            [newSlot page.packed_bounds (Rect.new 0 0 (wadd dims.1 st.spacing) (wadd dims.2 st.spacing))]).length - 1
            = page.free_slots.length := by simp
        rw [hidx, getD_append_at]
        exact newSlot_can_contain _ _)
      hr0wf
      (by
        intro s hs
        rw [List.mem_append, List.mem_singleton] at hs
        rcases hs with hs | rfl
        · exact hfree s hs
        · refine ⟨newSlot_wf _ _ hb.1 hb.2 (wadd_le_max _ _) (wadd_le_max _ _),
            InPage_dyn st hdyn _, ?_⟩
          intro t ht
          exact newSlot_disjoint page _ t ht)
      hplaced hpair
    injection heq with h1 h2
    subst h1
    subst h2
    refine ⟨h.1, ?_, h.2.2.1, h.2.2.2⟩
    unfold sizeCorr
    rcases h.2.1 with ⟨_, hw, hh⟩ | ⟨_, hw, hh⟩
    · left; exact ⟨hw, hh⟩
    · right; exact ⟨hw, hh⟩
  · -- existing candidate branch
    rename_i hnotempty
    rw [Option.some_inj] at heq
    have hcne : candList page.free_slots
        (Rect.new 0 0 (wadd dims.1 st.spacing) (wadd dims.2 st.spacing))
        (Rect.new 0 0 (wadd dims.2 st.spacing) (wadd dims.1 st.spacing)) st.rotation ≠ [] := by
      intro hnil
      rw [hnil] at hnotempty
      simp at hnotempty
    have hspec := candList_spec page.free_slots
      (Rect.new 0 0 (wadd dims.1 st.spacing) (wadd dims.2 st.spacing))
      (Rect.new 0 0 (wadd dims.2 st.spacing) (wadd dims.1 st.spacing)) st.rotation
    have h := packCore_push_good st page tex page.free_slots
      (candList page.free_slots
        (Rect.new 0 0 (wadd dims.1 st.spacing) (wadd dims.2 st.spacing))
        (Rect.new 0 0 (wadd dims.2 st.spacing) (wadd dims.1 st.spacing)) st.rotation)
      (Rect.new 0 0 (wadd dims.1 st.spacing) (wadd dims.2 st.spacing)) st.method
      hcne
      (fun i hi => (hspec i hi).1)
      (fun i hi => (hspec i hi).2)
      hr0wf hfree hplaced hpair
    injection heq with h1 h2
    subst h1
    subst h2
    refine ⟨h.1, ?_, h.2.2.1, h.2.2.2⟩
    unfold sizeCorr
    rcases h.2.1 with ⟨_, hw, hh⟩ | ⟨_, hw, hh⟩
    · left; exact ⟨hw, hh⟩
    · right; exact ⟨hw, hh⟩

/-! ### Reachable page states: claims C3 and C4 -/

theorem new_packed_rects (n : String) (sz : Option (Nat × Nat)) :
    (TexturePage.new n sz).packed_rects = [] := rfl

theorem new_textures (n : String) (sz : Option (Nat × Nat)) :
    (TexturePage.new n sz).textures = [] := rfl

theorem pageReach_good (st : PackingSettings) (hst : st.wf) (p : TexturePage)
    (h : PageReach st p) : PageGood st p := by
  induction h with
  | init name =>
    refine ⟨?_, ?_, ?_⟩
    · intro s hs
      unfold TexturePage.new at hs
      cases hps : st.page_size with
      | none =>
        simp only [hps] at hs
        cases hs
      | some wh =>
        obtain ⟨w, v⟩ := wh
        unfold PackingSettings.wf at hst
        simp only [hps] at hst hs
        rw [List.mem_singleton] at hs
        subst hs
        refine ⟨?_, ?_, ?_⟩
        · unfold Rect.wf
          refine ⟨?_, ?_, ?_, ?_⟩
          · show (0 : Nat) ≤ u32Max
            omega
          · show (0 : Nat) ≤ u32Max
            omega
          · show w ≤ u32Max
            exact hst.1
          · show v ≤ u32Max
            exact hst.2
        · unfold InPage
          simp only [hps]
          show 0 + w ≤ w ∧ 0 + v ≤ v
          omega
        · rw [new_packed_rects]
          intro t ht
          cases ht
    · rw [new_packed_rects]
      intro t ht
      cases ht
    · rw [new_packed_rects]
      exact List.Pairwise.nil
  | step p dims tex pd p' hreach heq ih =>
    exact (pack_push_good st p dims tex pd p' ih heq).1

theorem mem_packed_rects (p : TexturePage) (t : SourceTexture) (pd : PackingData)
    (ht : t ∈ p.textures) (hpd : t.packing = some pd) : pd.position ∈ p.packed_rects := by
  unfold TexturePage.packed_rects
  rw [List.mem_map]
  refine ⟨pd, ?_, rfl⟩
  rw [List.mem_filterMap]
  exact ⟨t, ht, hpd⟩

/-- C3: after every successful `pack_rectangle` call on a page (each
followed by the caller's push of the packed texture, as in
`pack_everything`), no rectangle remaining in the page's free-slot set
overlaps, with positive area, the position of any texture placed on the
page — including the rectangle just placed. -/
theorem C3_free_disjoint_placed (st : PackingSettings) (hst : st.wf) (p : TexturePage)
    (h : PageReach st p) :
    ∀ s ∈ p.free_slots, ∀ t ∈ p.textures, ∀ pd, t.packing = some pd →
      (s.intersection pd.position).area = 0 := by
  have hg := pageReach_good st hst p h
  intro s hs t ht pd hpd
  exact (hg.1 s hs).2.2 pd.position (mem_packed_rects p t pd ht hpd)

/-- C4: when `page_size` is set, every placed texture's position rectangle
(the spacing-expanded placement) lies entirely within
`(0,0)-(width,height)` of its page, for every sequence of successful
`pack_rectangle` calls starting from the seeded free slot. -/
theorem C4_fixed_containment (st : PackingSettings) (w h : Nat)
    (hps : st.page_size = some (w, h)) (hst : st.wf) (p : TexturePage)
    (hr : PageReach st p) :
    ∀ t ∈ p.textures, ∀ pd, t.packing = some pd →
      pd.position.x + pd.position.width ≤ w ∧ pd.position.y + pd.position.height ≤ h := by
  have hg := pageReach_good st hst p hr
  intro t ht pd hpd
  have hin := (hg.2.1 pd.position (mem_packed_rects p t pd ht hpd)).2
  unfold InPage at hin
  simp only [hps] at hin
  exact hin

/-- Witness for C3 at a concrete reachable page: a `32×32` fixed page with
one `16×16` texture placed at the origin; the free slot `(0,16,32,16)` does
not overlap the placed rectangle. -/
theorem C3_witness :
    ((Rect.new 0 16 32 16).intersection (Rect.new 0 0 16 16)).area = 0 :=
  C3_free_disjoint_placed ⟨.Distance, 0, false, some (32, 32)⟩ (by decide)
    (pushTexture (TexturePage.mk "p" [] (some (32, 32))
      [Rect.new 0 16 32 16, Rect.new 16 0 16 32])
      ⟨"a", "", Rect.new 0 0 16 16, none, none⟩ ⟨Rect.new 0 0 16 16, false⟩)
    (PageReach.step (TexturePage.new "p" (some (32, 32))) (16, 16)
      ⟨"a", "", Rect.new 0 0 16 16, none, none⟩ ⟨Rect.new 0 0 16 16, false⟩
      (TexturePage.mk "p" [] (some (32, 32))
        [Rect.new 0 16 32 16, Rect.new 16 0 16 32])
      (PageReach.init "p") (by decide))
    (Rect.new 0 16 32 16) (by decide)
    ⟨"a", "", Rect.new 0 0 16 16, none, some ⟨Rect.new 0 0 16 16, false⟩⟩ (by decide)
    ⟨Rect.new 0 0 16 16, false⟩ rfl

/-- Witness for C4 at the same concrete reachable page: the placed
`16×16` rectangle lies within the `32×32` page. -/
theorem C4_witness :
    (Rect.new 0 0 16 16).x + (Rect.new 0 0 16 16).width ≤ 32 ∧
    (Rect.new 0 0 16 16).y + (Rect.new 0 0 16 16).height ≤ 32 :=
  C4_fixed_containment ⟨.Distance, 0, false, some (32, 32)⟩ 32 32 rfl (by decide)
    (pushTexture (TexturePage.mk "p" [] (some (32, 32))
      [Rect.new 0 16 32 16, Rect.new 16 0 16 32])
      ⟨"a", "", Rect.new 0 0 16 16, none, none⟩ ⟨Rect.new 0 0 16 16, false⟩)
    (PageReach.step (TexturePage.new "p" (some (32, 32))) (16, 16)
      ⟨"a", "", Rect.new 0 0 16 16, none, none⟩ ⟨Rect.new 0 0 16 16, false⟩
      (TexturePage.mk "p" [] (some (32, 32))
        [Rect.new 0 16 32 16, Rect.new 16 0 16 32])
      (PageReach.init "p") (by decide))
    ⟨"a", "", Rect.new 0 0 16 16, none, some ⟨Rect.new 0 0 16 16, false⟩⟩ (by decide)
    ⟨Rect.new 0 0 16 16, false⟩ rfl

/-! ### Phase 1 of `pack_everything` preserves the page invariants -/

theorem packed_rects_congr (p q : TexturePage) (h : p.textures = q.textures) :
    p.packed_rects = q.packed_rects := by
  unfold TexturePage.packed_rects
  rw [h]

theorem p1good_push (st : PackingSettings) (page : TexturePage) (tex : SourceTexture)
    (pd : PackingData) (page' : TexturePage)
    (hgood : P1Good st page) (hrep : tex.replica_of = none)
    (heq : page.pack_rectangle (tex.dimensions.width, tex.dimensions.height) st =
      some (pd, page')) :
    P1Good st (pushTexture page' tex pd) ∧
    (pushTexture page' tex pd).textures = page.textures ++ [{ tex with packing := some pd }] := by
  obtain ⟨hpg, hpair, htex⟩ := hgood
  obtain ⟨hpg', hcorr, htex', hsize'⟩ :=
    pack_push_good st page (tex.dimensions.width, tex.dimensions.height) tex pd page' hpg heq
  have hpagetex : page'.textures = page.textures :=
    List.append_cancel_right htex'
  have hpackedpush : (pushTexture page' tex pd).packed_rects =
      page.packed_rects ++ [pd.position] := by
    rw [pushTexture_packed, packed_rects_congr page' page hpagetex]
  refine ⟨⟨hpg', ?_, ?_⟩, htex'⟩
  · rw [htex', List.pairwise_append]
    refine ⟨hpair, List.pairwise_singleton _ _, ?_⟩
    intro t1 ht1 t2 ht2
    rw [List.mem_singleton] at ht2
    subst ht2
    intro p1 p2 hp1 hp2
    have hp2' : some pd = some p2 := hp2
    rw [Option.some_inj] at hp2'
    subst hp2'
    have hpp := hpg'.2.2
    rw [hpackedpush, List.pairwise_append] at hpp
    exact hpp.2.2 p1.position (mem_packed_rects page t1 p1 ht1 hp1) pd.position
      (List.mem_singleton_self _)
  · rw [htex']
    intro t ht
    rw [List.mem_append, List.mem_singleton] at ht
    rcases ht with ht | rfl
    · exact htex t ht
    · exact ⟨hrep, pd, rfl, hcorr⟩

theorem pack_rectangle_dyn_some (page : TexturePage) (dims : Nat × Nat)
    (st : PackingSettings) (hdyn : st.page_size = none) :
    ∃ pd page', page.pack_rectangle dims st = some (pd, page') := by
  unfold TexturePage.pack_rectangle
  dsimp only
  split
  · rename_i hfix
    rw [hdyn] at hfix
    cases hfix
  · exact ⟨_, _, rfl⟩
  · exact ⟨_, _, rfl⟩

theorem tryPages_spec (st : PackingSettings) (tex : SourceTexture) :
    ∀ (pages pages' : List TexturePage),
      tryPages (tex.dimensions.width, tex.dimensions.height) st tex pages = some pages' →
      (∀ pg ∈ pages, P1Good st pg) → tex.replica_of = none →
      (∀ pg ∈ pages', P1Good st pg) ∧
      pages'.length = pages.length ∧
      ∃ pd, List.Perm (allTex pages')
        (allTex pages ++ [{ tex with packing := some pd }]) := by
  intro pages
  induction pages with
  | nil => intro pages' h; cases h
  | cons pg rest ih =>
    intro pages' h hgood hrep
    unfold tryPages at h
    split at h
    · rename_i pd pg' hpk
      rw [Option.some_inj] at h
      subst h
      obtain ⟨hgood', htex'⟩ :=
        p1good_push st pg tex pd pg' (hgood pg (List.mem_cons_self _ _)) hrep hpk
      refine ⟨?_, by simp [pushTexture], pd, ?_⟩
      · intro q hq
        rw [List.mem_cons] at hq
        rcases hq with rfl | hq
        · exact hgood'
        · exact hgood q (List.mem_cons_of_mem _ hq)
      · unfold allTex
        simp only [List.map_cons, List.flatten_cons, htex']
        rw [List.append_assoc, List.append_assoc]
        exact List.Perm.append_left _ List.perm_append_comm
    · rename_i hpk
      rw [Option.map_eq_some'] at h
      obtain ⟨rest', hrest, hcons⟩ := h
      subst hcons
      obtain ⟨hg, hlen, pd, hperm⟩ :=
        ih rest' hrest (fun q hq => hgood q (List.mem_cons_of_mem _ hq)) hrep
      refine ⟨?_, by simp [hlen], pd, ?_⟩
      · intro q hq
        rw [List.mem_cons] at hq
        rcases hq with rfl | hq
        · exact hgood q (List.mem_cons_self _ _)
        · exact hg q hq
      · unfold allTex at hperm ⊢
        simp only [List.map_cons, List.flatten_cons]
        rw [List.append_assoc]
        exact List.Perm.append_left _ hperm

theorem allTex_append (l1 l2 : List TexturePage) :
    allTex (l1 ++ l2) = allTex l1 ++ allTex l2 := by
  unfold allTex
  rw [List.map_append, List.flatten_append]

theorem strip_push (tex : SourceTexture) (pd : PackingData) :
    strip { tex with packing := some pd } = strip tex := rfl

theorem packOne_spec (label : String) (st : PackingSettings) (tex : SourceTexture)
    (pages pages' : List TexturePage) (hst : st.wf)
    (h : packOne label st pages tex = .ok pages')
    (hgood : ∀ pg ∈ pages, P1Good st pg) (hrep : tex.replica_of = none) :
    (∀ pg ∈ pages', P1Good st pg) ∧
    pages.length ≤ pages'.length ∧
    (st.page_size = none → pages ≠ [] → pages'.length = pages.length) ∧
    ∃ pd, List.Perm (allTex pages') (allTex pages ++ [{ tex with packing := some pd }]) := by
  unfold packOne at h
  dsimp only at h
  split at h
  · rename_i pages1 htry
    rw [Except.ok.injEq] at h
    subst h
    obtain ⟨hg, hlen, hperm⟩ := tryPages_spec st tex pages pages1 htry hgood hrep
    exact ⟨hg, by omega, fun _ _ => hlen, hperm⟩
  · rename_i htry
    split at h
    · rename_i pd pg' hpk
      rw [Except.ok.injEq] at h
      subst h
      have hfreshgood : P1Good st (TexturePage.new label st.page_size) := by
        refine ⟨pageReach_good st hst _ (PageReach.init label), ?_, ?_⟩
        · show List.Pairwise TexDisjoint []
          exact List.Pairwise.nil
        · intro t ht
          cases ht
      obtain ⟨hgood', htex'⟩ := p1good_push st _ tex pd pg' hfreshgood hrep hpk
      refine ⟨?_, by simp, ?_, pd, ?_⟩
      · intro q hq
        rw [List.mem_append, List.mem_singleton] at hq
        rcases hq with hq | rfl
        · exact hgood q hq
        · exact hgood'
      · intro hdyn hne
        exfalso
        match pages, hne with
        | pg0 :: rest, _ =>
          obtain ⟨pd0, pg0', hpk0⟩ :=
            pack_rectangle_dyn_some pg0 (tex.dimensions.width, tex.dimensions.height) st hdyn
          unfold tryPages at htry
          rw [hpk0] at htry
          cases htry
      · rw [allTex_append]
        have hsingle : allTex [pushTexture pg' tex pd] = [{ tex with packing := some pd }] := by
          unfold allTex
          simp only [List.map_cons, List.map_nil, List.flatten_cons, List.flatten_nil,
            List.append_nil, htex', new_textures, List.nil_append]
        rw [hsingle]
    · cases h

theorem phase1_spec (label : String) (st : PackingSettings) (hst : st.wf) :
    ∀ (srcs : List SourceTexture) (pages : List TexturePage) (reps : List SourceTexture)
      (pages2 : List TexturePage) (reps2 : List SourceTexture),
      phase1 label st pages reps srcs = .ok (pages2, reps2) →
      (∀ pg ∈ pages, P1Good st pg) →
      (∀ pg ∈ pages2, P1Good st pg) ∧
      pages.length ≤ pages2.length ∧
      (st.page_size = none → pages ≠ [] → pages2.length = pages.length) ∧
      reps2 = reps ++ srcs.filter (fun t => t.replica_of.isSome) ∧
      List.Perm ((allTex pages2).map strip)
        ((allTex pages).map strip ++
          ((srcs.filter (fun t => t.replica_of.isNone)).map strip)) := by
  intro srcs
  induction srcs with
  | nil =>
    intro pages reps pages2 reps2 h hgood
    unfold phase1 at h
    rw [Except.ok.injEq, Prod.mk.injEq] at h
    obtain ⟨h1, h2⟩ := h
    subst h1
    subst h2
    refine ⟨hgood, le_refl _, fun _ _ => rfl, by simp, by simp⟩
  | cons tex rest ih =>
    intro pages reps pages2 reps2 h hgood
    unfold phase1 at h
    split at h
    · -- non-replica
      rename_i hrep
      split at h
      · rename_i pages1 hone
        obtain ⟨hg1, hlen1, hdyn1, pd, hperm1⟩ :=
          packOne_spec label st tex pages pages1 hst hone hgood hrep
        obtain ⟨hg2, hlen2, hdyn2, hreps2, hperm2⟩ := ih pages1 reps pages2 reps2 h hg1
        refine ⟨hg2, by omega, ?_, ?_, ?_⟩
        · intro hdyn hne
          have e1 := hdyn1 hdyn hne
          have hne1 : pages1 ≠ [] := by
            intro hnil
            rw [hnil] at e1
            simp at e1
            exact hne (List.length_eq_zero.mp e1.symm)
          have e2 := hdyn2 hdyn hne1
          omega
        · rw [hreps2]
          have : tex.replica_of.isSome = false := by rw [hrep]; rfl
          simp [List.filter_cons, this]
        · have hstep : List.Perm ((allTex pages1).map strip)
              ((allTex pages).map strip ++ [strip tex]) := by
            have := hperm1.map strip
            rw [List.map_append] at this
            simpa [strip_push] using this
          have hnr : tex.replica_of.isNone = true := by rw [hrep]; rfl
          rw [List.filter_cons, if_pos hnr]
          refine hperm2.trans ?_
          have h1 : List.Perm
              ((allTex pages1).map strip ++
                (rest.filter (fun t => t.replica_of.isNone)).map strip)
              (((allTex pages).map strip ++ [strip tex]) ++
                (rest.filter (fun t => t.replica_of.isNone)).map strip) :=
            List.Perm.append_right _ hstep
          refine h1.trans ?_
          rw [List.append_assoc]
          exact List.Perm.refl _
      · cases h
    · -- replica: queued
      rename_i s hrep
      obtain ⟨hg2, hlen2, hdyn2, hreps2, hperm2⟩ := ih pages (reps ++ [tex]) pages2 reps2 h hgood
      have hsome : tex.replica_of.isSome = true := by rw [hrep]; rfl
      have hnone : tex.replica_of.isNone = false := by rw [hrep]; rfl
      refine ⟨hg2, hlen2, hdyn2, ?_, ?_⟩
      · rw [hreps2, List.filter_cons, if_pos hsome, List.append_assoc]
        rfl
      · rw [List.filter_cons, if_neg (by rw [hnone]; exact Bool.false_ne_true)]
        exact hperm2

/-! ### Phase 2: replica resolution -/

theorem replicaFind_length (tex : SourceTexture) (orig : String) :
    ∀ pages, (replicaFind tex orig pages).length = pages.length := by
  intro pages
  induction pages with
  | nil => rfl
  | cons pg rest ih =>
    unfold replicaFind
    split <;> simp [ih]

theorem replicaStep_length (pages : List TexturePage) (t : SourceTexture) :
    (replicaStep pages t).length = pages.length := by
  unfold replicaStep
  split
  · exact replicaFind_length _ _ _
  · rfl

theorem resolveReplicas_length (reps : List SourceTexture) :
    ∀ pages, (resolveReplicas pages reps).length = pages.length := by
  induction reps with
  | nil => intro pages; rfl
  | cons t rest ih =>
    intro pages
    show (resolveReplicas (replicaStep pages t) rest).length = _
    rw [ih, replicaStep_length]

/-- Any per-page textures predicate stable under appending a replica
texture (with any copied packing) survives the whole replica phase. -/
theorem resolveReplicas_pred (P : List SourceTexture → Prop)
    (hP : ∀ (l : List SourceTexture) (t : SourceTexture) (pk : Option PackingData),
      P l → t.replica_of.isSome = true → P (l ++ [{ t with packing := pk }])) :
    ∀ (reps : List SourceTexture) (pages : List TexturePage),
      (∀ t ∈ reps, t.replica_of.isSome = true) →
      (∀ pg ∈ pages, P pg.textures) →
      ∀ pg ∈ resolveReplicas pages reps, P pg.textures := by
  intro reps
  induction reps with
  | nil => intro pages _ hpages pg hpg; exact hpages pg hpg
  | cons t rest ih =>
    intro pages hreps hpages pg hpg
    refine ih (replicaStep pages t) (fun u hu => hreps u (List.mem_cons_of_mem _ hu)) ?_ pg hpg
    intro q hq
    unfold replicaStep at hq
    split at hq
    · rename_i orig horig
      clear hpg
      induction pages with
      | nil => cases hq
      | cons pg0 rest0 ih0 =>
        unfold replicaFind at hq
        split at hq
        · rename_i m hm
          rw [List.mem_cons] at hq
          rcases hq with rfl | hq
          · exact hP pg0.textures t m.packing (hpages pg0 (List.mem_cons_self _ _))
              (hreps t (List.mem_cons_self _ _))
          · exact hpages q (List.mem_cons_of_mem _ hq)
        · rw [List.mem_cons] at hq
          rcases hq with rfl | hq
          · exact hpages q (List.mem_cons_self _ _)
          · exact ih0 (fun u hu => hpages u (List.mem_cons_of_mem _ hu)) hq
    · exact hpages q hq

/-- The non-replica textures across all pages are untouched by the
replica phase. -/
theorem resolveReplicas_NR (reps : List SourceTexture) :
    ∀ pages, (∀ t ∈ reps, t.replica_of.isSome = true) →
      (allTex (resolveReplicas pages reps)).filter (fun u => u.replica_of.isNone) =
        (allTex pages).filter (fun u => u.replica_of.isNone) := by
  induction reps with
  | nil => intro pages _; rfl
  | cons t rest ih =>
    intro pages hreps
    show (allTex (resolveReplicas (replicaStep pages t) rest)).filter _ = _
    rw [ih (replicaStep pages t) (fun u hu => hreps u (List.mem_cons_of_mem _ hu))]
    have ht := hreps t (List.mem_cons_self _ _)
    unfold replicaStep
    split
    · rename_i orig horig
      induction pages with
      | nil => rfl
      | cons pg0 rest0 ih0 =>
        unfold replicaFind
        split
        · rename_i m hm
          unfold allTex
          simp only [List.map_cons, List.flatten_cons, List.filter_append]
          have hfalse : ({ t with packing := m.packing } : SourceTexture).replica_of.isNone
              = false := by
            show t.replica_of.isNone = false
            rw [horig]
            rfl
          simp [hfalse]
        · unfold allTex
          simp only [List.map_cons, List.flatten_cons, List.filter_append]
          congr 1
    · rfl

/-! ### Page renaming and assembly of the final packer facts -/

theorem mapIdx_textures :
    ∀ (l : List TexturePage) (g : Nat → TexturePage → TexturePage),
      (∀ i pg, (g i pg).textures = pg.textures) →
      (l.mapIdx g).map (fun pg => pg.textures) = l.map (fun pg => pg.textures) := by
  intro l
  induction l with
  | nil => intro g _; rfl
  | cons a as ih =>
    intro g hg
    rw [List.mapIdx_cons, List.map_cons, List.map_cons, hg,
      ih (fun i => g (i + 1)) (fun i pg => hg (i + 1) pg)]

theorem adjust_facts (p : TexturePacker) :
    (p.adjust_page_names).pages.map (fun pg => pg.textures) =
      p.pages.map (fun pg => pg.textures) ∧
    (p.adjust_page_names).pages.length = p.pages.length ∧
    (p.adjust_page_names).settings = p.settings ∧
    (p.adjust_page_names).sources = p.sources := by
  unfold TexturePacker.adjust_page_names
  split
  · rename_i pg heq
    rw [heq]
    exact ⟨rfl, rfl, rfl, rfl⟩
  · refine ⟨mapIdx_textures p.pages _ (fun i pg => rfl), by simp, rfl, rfl⟩

theorem allTex_of_map_textures {l1 l2 : List TexturePage}
    (h : l1.map (fun pg => pg.textures) = l2.map (fun pg => pg.textures)) :
    allTex l1 = allTex l2 := by
  unfold allTex
  rw [h]

theorem fresh_P1Good (st : PackingSettings) (hst : st.wf) (label : String) :
    P1Good st (TexturePage.new label st.page_size) := by
  refine ⟨pageReach_good st hst _ (PageReach.init label), ?_, ?_⟩
  · show List.Pairwise TexDisjoint []
    exact List.Pairwise.nil
  · intro t ht
    cases ht

theorem P1Good_to_PTex (st : PackingSettings) (pg : TexturePage) (h : P1Good st pg) :
    PTex st pg.textures := by
  obtain ⟨hpg, hpair, htex⟩ := h
  refine ⟨hpair.imp (fun hd => fun _ _ => hd), ?_⟩
  intro t ht _
  obtain ⟨hrep, pd, hpd, hcorr⟩ := htex t ht
  have hmem := mem_packed_rects pg t pd ht hpd
  exact ⟨pd, hpd, hcorr, (hpg.2.1 pd.position hmem).1, (hpg.2.1 pd.position hmem).2⟩

theorem PTex_append_replica (st : PackingSettings) :
    ∀ (l : List SourceTexture) (t : SourceTexture) (pk : Option PackingData),
      PTex st l → t.replica_of.isSome = true → PTex st (l ++ [{ t with packing := pk }]) := by
  intro l t pk ⟨hpair, hall⟩ hsome
  have hne : ({ t with packing := pk } : SourceTexture).replica_of ≠ none := by
    show t.replica_of ≠ none
    intro hc
    rw [hc] at hsome
    cases hsome
  constructor
  · rw [List.pairwise_append]
    refine ⟨hpair, List.pairwise_singleton _ _, ?_⟩
    intro t1 _ t2 ht2
    rw [List.mem_singleton] at ht2
    subst ht2
    intro _ h2
    exact absurd h2 hne
  · intro u hu
    rw [List.mem_append, List.mem_singleton] at hu
    rcases hu with hu | rfl
    · exact hall u hu
    · intro h2
      exact absurd h2 hne

/-- Everything `pack_everything` guarantees about its `Ok` result, starting
from a freshly constructed packer. -/
theorem pack_everything_facts (label : String) (srcs : List SourceTexture)
    (st : PackingSettings) (q : TexturePacker) (hst : st.wf)
    (hok : (TexturePacker.new label srcs st).pack_everything = .ok q) :
    q.settings = st ∧
    q.sources = [] ∧
    1 ≤ q.pages.length ∧
    (st.page_size = none → q.pages.length = 1) ∧
    (∀ pg ∈ q.pages, PTex st pg.textures) ∧
    List.Perm (((allTex q.pages).filter (fun u => u.replica_of.isNone)).map strip)
      ((srcs.filter (fun u => u.replica_of.isNone)).map strip) := by
  unfold TexturePacker.pack_everything at hok
  split at hok
  · cases hok
  · rename_i pages2 reps2 hph
    rw [Except.ok.injEq] at hok
    subst hok
    have hinit : ∀ pg ∈ (TexturePacker.new label srcs st).pages, P1Good st pg := by
      intro pg hpg
      rw [show (TexturePacker.new label srcs st).pages
        = [TexturePage.new label st.page_size] from rfl, List.mem_singleton] at hpg
      subst hpg
      exact fresh_P1Good st hst label
    obtain ⟨hg2, hlen2, hdyn2, hreps2, hperm2⟩ :=
      phase1_spec label st hst srcs (TexturePacker.new label srcs st).pages [] pages2 reps2
        hph hinit
    have hrepsome : ∀ t ∈ reps2, t.replica_of.isSome = true := by
      rw [hreps2]
      intro t ht
      rw [List.nil_append, List.mem_filter] at ht
      exact ht.2
    obtain ⟨hmapT, hlenA, hsetA, hsrcA⟩ := adjust_facts
      { (TexturePacker.new label srcs st) with
        sources := ([] : List SourceTexture),
        pages := resolveReplicas pages2 reps2 }
    refine ⟨hsetA, hsrcA, ?_, ?_, ?_, ?_⟩
    · rw [hlenA]
      show 1 ≤ (resolveReplicas pages2 reps2).length
      rw [resolveReplicas_length]
      have : (TexturePacker.new label srcs st).pages.length = 1 := rfl
      omega
    · intro hdyn
      rw [hlenA]
      show (resolveReplicas pages2 reps2).length = 1
      rw [resolveReplicas_length]
      have h1 := hdyn2 hdyn (by
        show ([TexturePage.new label st.page_size] : List TexturePage) ≠ []
        simp)
      have : (TexturePacker.new label srcs st).pages.length = 1 := rfl
      omega
    · intro pg hpg
      have hmem : pg.textures ∈ (resolveReplicas pages2 reps2).map (fun pg => pg.textures) := by
        rw [← hmapT]
        exact List.mem_map_of_mem _ hpg
      rw [List.mem_map] at hmem
      obtain ⟨pg0, hpg0, htexeq⟩ := hmem
      rw [← htexeq]
      refine resolveReplicas_pred (PTex st) (PTex_append_replica st) reps2 pages2 hrepsome
        ?_ pg0 hpg0
      intro r hr
      exact P1Good_to_PTex st r (hg2 r hr)
    · have hA : allTex ((TexturePacker.adjust_page_names
          { (TexturePacker.new label srcs st) with
            sources := ([] : List SourceTexture),
            pages := resolveReplicas pages2 reps2 }).pages)
          = allTex (resolveReplicas pages2 reps2) := allTex_of_map_textures hmapT
      rw [hA, resolveReplicas_NR reps2 pages2 hrepsome]
      have hNRall : (allTex pages2).filter (fun u => u.replica_of.isNone) = allTex pages2 := by
        apply List.filter_eq_self.mpr
        intro t ht
        have := hg2
        -- every phase-1 texture is a non-replica
        have hmem : ∃ pg ∈ pages2, t ∈ pg.textures := by
          unfold allTex at ht
          rw [List.mem_flatten] at ht
          obtain ⟨l, hl, htl⟩ := ht
          rw [List.mem_map] at hl
          obtain ⟨pg, hpg, rfl⟩ := hl
          exact ⟨pg, hpg, htl⟩
        obtain ⟨pg, hpg, htpg⟩ := hmem
        have := (hg2 pg hpg).2.2 t htpg
        rw [this.1]
        rfl
      rw [hNRall]
      refine hperm2.trans ?_
      have hempty : allTex (TexturePacker.new label srcs st).pages = [] := rfl
      rw [hempty]
      simp

/-! ### Claim C10: the page list is never empty -/

theorem tryPages_length (dims : Nat × Nat) (st : PackingSettings) (tex : SourceTexture) :
    ∀ pages pages', tryPages dims st tex pages = some pages' →
      pages'.length = pages.length := by
  intro pages
  induction pages with
  | nil => intro pages' h; cases h
  | cons pg rest ih =>
    intro pages' h
    unfold tryPages at h
    split at h
    · rw [Option.some_inj] at h
      subst h
      rfl
    · rw [Option.map_eq_some'] at h
      obtain ⟨rest', hrest, rfl⟩ := h
      simp [ih rest' hrest]

theorem packOne_length (label : String) (st : PackingSettings) (tex : SourceTexture)
    (pages pages' : List TexturePage) (h : packOne label st pages tex = .ok pages') :
    pages.length ≤ pages'.length := by
  unfold packOne at h
  dsimp only at h
  split at h
  · rename_i pages1 htry
    rw [Except.ok.injEq] at h
    subst h
    rw [tryPages_length _ st tex pages pages1 htry]
  · split at h
    · rw [Except.ok.injEq] at h
      subst h
      simp
    · cases h

theorem phase1_length (label : String) (st : PackingSettings) :
    ∀ (srcs : List SourceTexture) (pages : List TexturePage) (reps : List SourceTexture)
      (pages2 : List TexturePage) (reps2 : List SourceTexture),
      phase1 label st pages reps srcs = .ok (pages2, reps2) →
      pages.length ≤ pages2.length := by
  intro srcs
  induction srcs with
  | nil =>
    intro pages reps pages2 reps2 h
    unfold phase1 at h
    rw [Except.ok.injEq, Prod.mk.injEq] at h
    rw [← h.1]
  | cons tex rest ih =>
    intro pages reps pages2 reps2 h
    unfold phase1 at h
    split at h
    · split at h
      · rename_i pages1 hone
        have := ih pages1 reps pages2 reps2 h
        have := packOne_length label st tex pages pages1 hone
        omega
      · cases h
    · exact ih pages (reps ++ [tex]) pages2 reps2 h

/-- C10: a packer is constructed with exactly one page, and
`pack_everything` only ever appends pages, so the page list is non-empty
at all times and the `pages[0]` accesses of `page_size` and
`total_packed_area` are always in bounds. -/
theorem C10_pages_never_empty :
    (∀ (label : String) (srcs : List SourceTexture) (st : PackingSettings),
      (TexturePacker.new label srcs st).pages.length = 1) ∧
    (∀ (p q : TexturePacker), p.pack_everything = .ok q →
      p.pages.length ≤ q.pages.length ∧ (p.pages ≠ [] → q.pages ≠ [])) := by
  refine ⟨fun _ _ _ => rfl, ?_⟩
  intro p q hok
  unfold TexturePacker.pack_everything at hok
  split at hok
  · cases hok
  · rename_i pages2 reps2 hph
    rw [Except.ok.injEq] at hok
    subst hok
    obtain ⟨hmapT, hlenA, hsetA, hsrcA⟩ := adjust_facts
      { p with sources := ([] : List SourceTexture), pages := resolveReplicas pages2 reps2 }
    have h1 := phase1_length p.label p.settings p.sources p.pages [] pages2 reps2 hph
    have h2 := resolveReplicas_length reps2 pages2
    constructor
    · rw [hlenA]
      show p.pages.length ≤ (resolveReplicas pages2 reps2).length
      omega
    · intro hne
      have h3 : 0 < p.pages.length := List.length_pos.mpr hne
      apply List.length_pos.mp
      rw [hlenA]
      show 0 < (resolveReplicas pages2 reps2).length
      omega

/-- Witness for C10 on a concrete packer: one dynamic-page packer with a
single source keeps a non-empty page list through `pack_everything`. -/
theorem C10_witness :
    (TexturePacker.new "a" [⟨"t", "", Rect.new 0 0 4 4, none, none⟩]
      ⟨.Distance, 0, false, none⟩).pages.length ≤
      (TexturePacker.mk "a"
        [TexturePage.mk "a"
          [⟨"t", "", Rect.new 0 0 4 4, none, some ⟨Rect.new 0 0 4 4, false⟩⟩] none []]
        ⟨.Distance, 0, false, none⟩ []).pages.length ∧
    ((TexturePacker.new "a" [⟨"t", "", Rect.new 0 0 4 4, none, none⟩]
        ⟨.Distance, 0, false, none⟩).pages ≠ [] →
      (TexturePacker.mk "a"
        [TexturePage.mk "a"
          [⟨"t", "", Rect.new 0 0 4 4, none, some ⟨Rect.new 0 0 4 4, false⟩⟩] none []]
        ⟨.Distance, 0, false, none⟩ []).pages ≠ []) :=
  C10_pages_never_empty.2 _ _ (by rfl)

/-! ### Claim C2: completeness of phase 1 -/

/-- C2: after `pack_everything` returns `Ok`, the unplaced-sources list is
empty, every non-replica texture on a page carries a placement (its
`packing` field holds exactly one `PackingData`), and the non-replica
textures across all pages are, up to the placement field, a permutation
of the non-replica sources supplied to the constructor — each source is
on exactly one page. -/
theorem C2_completeness (label : String) (srcs : List SourceTexture)
    (st : PackingSettings) (q : TexturePacker) (hst : st.wf)
    (hok : (TexturePacker.new label srcs st).pack_everything = .ok q) :
    q.sources = [] ∧
    (∀ pg ∈ q.pages, ∀ t ∈ pg.textures, t.replica_of = none → t.packing.isSome = true) ∧
    List.Perm (((allTex q.pages).filter (fun u => u.replica_of.isNone)).map strip)
      ((srcs.filter (fun u => u.replica_of.isNone)).map strip) := by
  obtain ⟨hset, hsrc, _, _, hptex, hperm⟩ :=
    pack_everything_facts label srcs st q hst hok
  refine ⟨hsrc, ?_, hperm⟩
  intro pg hpg t ht hrep
  obtain ⟨pd, hpd, _⟩ := (hptex pg hpg).2 t ht hrep
  rw [hpd]
  rfl

/-- Witness for C2 on a concrete run: one `4×4` non-replica source on a
dynamic page. -/
theorem C2_witness :
    (TexturePacker.mk "a"
      [TexturePage.mk "a"
        [⟨"t", "", Rect.new 0 0 4 4, none, some ⟨Rect.new 0 0 4 4, false⟩⟩] none []]
      ⟨.Distance, 0, false, none⟩ []).sources = [] ∧
    (∀ pg ∈ (TexturePacker.mk "a"
        [TexturePage.mk "a"
          [⟨"t", "", Rect.new 0 0 4 4, none, some ⟨Rect.new 0 0 4 4, false⟩⟩] none []]
        ⟨.Distance, 0, false, none⟩ []).pages,
      ∀ t ∈ pg.textures, t.replica_of = none → t.packing.isSome = true) ∧
    List.Perm
      (((allTex (TexturePacker.mk "a"
          [TexturePage.mk "a"
            [⟨"t", "", Rect.new 0 0 4 4, none, some ⟨Rect.new 0 0 4 4, false⟩⟩] none []]
          ⟨.Distance, 0, false, none⟩ []).pages).filter
            (fun u => u.replica_of.isNone)).map strip)
      ((([⟨"t", "", Rect.new 0 0 4 4, none, none⟩] : List SourceTexture).filter
          (fun u => u.replica_of.isNone)).map strip) :=
  C2_completeness "a" [⟨"t", "", Rect.new 0 0 4 4, none, none⟩]
    ⟨.Distance, 0, false, none⟩ _ (by decide) (by rfl)

/-! ### Claim C1: no overlap between placed textures of one page -/

/-- The run refuting C1 as stated: a `16×16` texture and a byte-identical
replica of it; the replica is appended to the same page with the very same
position, so the pair overlaps with positive area. -/
def checkC1 : Bool :=
  match (TexturePacker.new "a"
      [⟨"a", "", Rect.new 0 0 16 16, none, none⟩,
       ⟨"b", "", Rect.new 0 0 16 16, some "a", none⟩]
      ⟨.Distance, 0, false, none⟩).pack_everything with
  | .ok q => q.pages.all pageNoOverlapAll
  | .error _ => true

/-- C1 counterexample: with a replica in the input, `pack_everything`
succeeds but the resulting page has two textures (the original and its
replica) whose position rectangles coincide and overlap with area 256. -/
theorem C1_counterexample : checkC1 = false := by rfl

/-- C1 (amended): for every page of a packer after `pack_everything`
succeeds, all pairs of NON-REPLICA textures on the same page have
non-overlapping (zero-area intersection) position rectangles.  The
restriction to non-replicas is forced: a replica shares its original's
exact position on the same page. -/
theorem C1_amended_no_overlap (label : String) (srcs : List SourceTexture)
    (st : PackingSettings) (q : TexturePacker) (hst : st.wf)
    (hok : (TexturePacker.new label srcs st).pack_everything = .ok q) :
    ∀ pg ∈ q.pages, pageNoOverlapNR pg := by
  obtain ⟨_, _, _, _, hptex, _⟩ := pack_everything_facts label srcs st q hst hok
  intro pg hpg
  unfold pageNoOverlapNR
  refine ((hptex pg hpg).1).imp ?_
  intro t1 t2 h h1 h2 p1 p2 hp1 hp2
  exact h h1 h2 p1 p2 hp1 hp2

/-- Witness for C1 (amended) on the same concrete replica run: the
resulting page satisfies the non-replica no-overlap property. -/
theorem C1_amended_witness :
    pageNoOverlapNR
      (TexturePage.mk "a"
        [⟨"a", "", Rect.new 0 0 16 16, none, some ⟨Rect.new 0 0 16 16, false⟩⟩,
         ⟨"b", "", Rect.new 0 0 16 16, some "a", some ⟨Rect.new 0 0 16 16, false⟩⟩]
        none []) :=
  C1_amended_no_overlap "a"
    [⟨"a", "", Rect.new 0 0 16 16, none, none⟩,
     ⟨"b", "", Rect.new 0 0 16 16, some "a", none⟩]
    ⟨.Distance, 0, false, none⟩
    (TexturePacker.mk "a"
      [TexturePage.mk "a"
        [⟨"a", "", Rect.new 0 0 16 16, none, some ⟨Rect.new 0 0 16 16, false⟩⟩,
         ⟨"b", "", Rect.new 0 0 16 16, some "a", some ⟨Rect.new 0 0 16 16, false⟩⟩]
        none []]
      ⟨.Distance, 0, false, none⟩ [])
    (by decide) (by rfl) _ (by decide)

/-! ### Claim C5: replica fidelity -/

theorem replicaFind_mono (tex : SourceTexture) (orig : String) :
    ∀ pages, ∀ pg ∈ pages, ∃ pg' ∈ replicaFind tex orig pages,
      ∀ u ∈ pg.textures, u ∈ pg'.textures := by
  intro pages
  induction pages with
  | nil => intro pg hpg; cases hpg
  | cons pg0 rest ih =>
    intro pg hpg
    unfold replicaFind
    split
    · rename_i m hm
      rw [List.mem_cons] at hpg
      rcases hpg with rfl | hpg
      · exact ⟨_, List.mem_cons_self _ _, fun u hu => List.mem_append_left _ hu⟩
      · exact ⟨pg, List.mem_cons_of_mem _ hpg, fun u hu => hu⟩
    · rw [List.mem_cons] at hpg
      rcases hpg with rfl | hpg
      · exact ⟨pg, List.mem_cons_self _ _, fun u hu => hu⟩
      · obtain ⟨pg', hpg', hsub⟩ := ih pg hpg
        exact ⟨pg', List.mem_cons_of_mem _ hpg', hsub⟩

theorem replicaStep_mono (t : SourceTexture) (pages : List TexturePage) :
    ∀ pg ∈ pages, ∃ pg' ∈ replicaStep pages t, ∀ u ∈ pg.textures, u ∈ pg'.textures := by
  intro pg hpg
  unfold replicaStep
  split
  · exact replicaFind_mono _ _ pages pg hpg
  · exact ⟨pg, hpg, fun u hu => hu⟩

theorem resolveReplicas_mono (reps : List SourceTexture) :
    ∀ pages, ∀ pg ∈ pages, ∃ pg' ∈ resolveReplicas pages reps,
      ∀ u ∈ pg.textures, u ∈ pg'.textures := by
  induction reps with
  | nil => intro pages pg hpg; exact ⟨pg, hpg, fun u hu => hu⟩
  | cons t rest ih =>
    intro pages pg hpg
    obtain ⟨pg1, hpg1, hsub1⟩ := replicaStep_mono t pages pg hpg
    obtain ⟨pg2, hpg2, hsub2⟩ := ih (replicaStep pages t) pg1 hpg1
    exact ⟨pg2, hpg2, fun u hu => hsub2 u (hsub1 u hu)⟩

theorem replicaFind_found (tex : SourceTexture) (n : String) :
    ∀ pages, (∃ pg ∈ pages, ∃ u ∈ pg.textures, u.name = n) →
      ∃ pg' ∈ replicaFind tex n pages, ∃ m ∈ pg'.textures, m.name = n ∧
        { tex with packing := m.packing } ∈ pg'.textures := by
  intro pages
  induction pages with
  | nil => rintro ⟨pg, hpg, _⟩; cases hpg
  | cons pg0 rest ih =>
    rintro ⟨pg, hpg, u, hu, hname⟩
    unfold replicaFind
    cases hfind : pg0.textures.find? (fun t => t.name == n) with
    | some m =>
      refine ⟨_, List.mem_cons_self _ _, m, ?_, ?_, ?_⟩
      · exact List.mem_append_left _ (List.mem_of_find?_eq_some hfind)
      · have := List.find?_some hfind
        rwa [beq_iff_eq] at this
      · exact List.mem_append_right _ (List.mem_singleton_self _)
    | none =>
      rw [List.mem_cons] at hpg
      rcases hpg with rfl | hpg
      · exfalso
        have := List.find?_eq_none.mp hfind u hu
        rw [beq_iff_eq] at this
        exact this hname
      · obtain ⟨pg', hpg', hrest⟩ := ih ⟨pg, hpg, u, hu, hname⟩
        exact ⟨pg', List.mem_cons_of_mem _ hpg', hrest⟩

/-- C5: for a replica `r` (`replica_of = some n`) in the queued replica
list, (1) if some page holds a texture named `n` (its original — names are
unique upstream), then after the replica loop there is a page holding both
a texture `m` named `n` and the replica with `m`'s packing copied verbatim
(`{ r with packing := m.packing }`: identical `Option PackingData`, hence
identical position rectangle and rotated flag, on the same page); and
(2) a replica whose named original occurs on no page leaves the pages
exactly unchanged at its turn — it is dropped without error. -/
theorem C5_replica_fidelity (pages : List TexturePage) (reps : List SourceTexture)
    (r : SourceTexture) (n : String) (hr : r ∈ reps) (hro : r.replica_of = some n) :
    ((∃ pg ∈ pages, ∃ u ∈ pg.textures, u.name = n) →
      ∃ pg ∈ resolveReplicas pages reps, ∃ m ∈ pg.textures, m.name = n ∧
        { r with packing := m.packing } ∈ pg.textures) ∧
    (∀ pages0 : List TexturePage,
      (∀ pg ∈ pages0, ∀ u ∈ pg.textures, u.name ≠ n) → replicaStep pages0 r = pages0) := by
  constructor
  · intro hfound
    obtain ⟨l1, l2, rfl⟩ := List.append_of_mem hr
    unfold resolveReplicas
    rw [List.foldl_append]
    show ∃ pg ∈ List.foldl replicaStep
      (replicaStep (List.foldl replicaStep pages l1) r) l2, _
    -- the original survives the prefix of the fold
    obtain ⟨pg, hpg, u, hu, hname⟩ := hfound
    obtain ⟨pg1, hpg1, hsub1⟩ := resolveReplicas_mono l1 pages pg hpg
    have hfound1 : ∃ pg ∈ List.foldl replicaStep pages l1, ∃ u ∈ pg.textures, u.name = n :=
      ⟨pg1, hpg1, u, hsub1 u hu, hname⟩
    -- r's own step pushes the copy next to the found original
    have hstep : replicaStep (List.foldl replicaStep pages l1) r
        = replicaFind r n (List.foldl replicaStep pages l1) := by
      unfold replicaStep
      rw [hro]
    obtain ⟨pg2, hpg2, m, hm, hmn, hcopy⟩ :=
      replicaFind_found r n (List.foldl replicaStep pages l1) hfound1
    rw [← hstep] at hpg2
    -- both survive the rest of the fold on the same page
    obtain ⟨pg3, hpg3, hsub3⟩ :=
      resolveReplicas_mono l2 (replicaStep (List.foldl replicaStep pages l1) r) pg2 hpg2
    exact ⟨pg3, hpg3, m, hsub3 m hm, hmn, hsub3 _ hcopy⟩
  · intro pages0 hnone
    unfold replicaStep
    rw [hro]
    induction pages0 with
    | nil => rfl
    | cons pg0 rest ih =>
      unfold replicaFind
      have hfind : pg0.textures.find? (fun t => t.name == n) = none := by
        rw [List.find?_eq_none]
        intro u hu
        rw [beq_iff_eq]
        exact hnone pg0 (List.mem_cons_self _ _) u hu
      rw [hfind]
      show pg0 :: replicaFind r n rest = pg0 :: rest
      have h2 : replicaFind r n rest = rest :=
        ih (fun pg hpg u hu => hnone pg (List.mem_cons_of_mem _ hpg) u hu)
      rw [h2]

/-- Witness for C5: one page holding a placed texture named `a`, one
queued replica of `a`; the replica ends up beside its original with the
same packing. -/
theorem C5_witness :
    ∃ pg ∈ resolveReplicas
      [TexturePage.mk "p"
        [⟨"a", "", Rect.new 0 0 16 16, none, some ⟨Rect.new 0 0 16 16, false⟩⟩] none []]
      [⟨"b", "", Rect.new 0 0 16 16, some "a", none⟩],
      ∃ m ∈ pg.textures, m.name = "a" ∧
        ({ (⟨"b", "", Rect.new 0 0 16 16, some "a", none⟩ : SourceTexture) with
            packing := m.packing } : SourceTexture) ∈ pg.textures :=
  (C5_replica_fidelity
    [TexturePage.mk "p"
      [⟨"a", "", Rect.new 0 0 16 16, none, some ⟨Rect.new 0 0 16 16, false⟩⟩] none []]
    [⟨"b", "", Rect.new 0 0 16 16, some "a", none⟩]
    ⟨"b", "", Rect.new 0 0 16 16, some "a", none⟩ "a"
    (List.mem_singleton_self _) rfl).1
    ⟨_, List.mem_singleton_self _,
      ⟨"a", "", Rect.new 0 0 16 16, none, some ⟨Rect.new 0 0 16 16, false⟩⟩,
      List.mem_singleton_self _, rfl⟩

/-! ### Area counting: disjoint rectangles in a region -/

theorem card_ptsOf (r : Rect) : (ptsOf r).card = r.width * r.height := by
  rw [ptsOf, Finset.card_product, Nat.card_Ico, Nat.card_Ico,
    Nat.add_sub_cancel_left, Nat.add_sub_cancel_left]

theorem ptsOf_subset (r : Rect) (W H : Nat) (h1 : r.x + r.width ≤ W)
    (h2 : r.y + r.height ≤ H) : ptsOf r ⊆ ptsOf (Rect.mk 0 0 W H) := by
  unfold ptsOf
  refine Finset.product_subset_product ?_ ?_
  · exact Finset.Ico_subset_Ico (Nat.zero_le _) (show r.x + r.width ≤ 0 + W by omega)
  · exact Finset.Ico_subset_Ico (Nat.zero_le _) (show r.y + r.height ≤ 0 + H by omega)

theorem ptsOf_disjoint (a b : Rect) (hd : disjointR a b)
    (ha : a.x + a.width ≤ u32Max ∧ a.y + a.height ≤ u32Max)
    (hb : b.x + b.width ≤ u32Max ∧ b.y + b.height ≤ u32Max) :
    Disjoint (ptsOf a) (ptsOf b) := by
  rw [Finset.disjoint_left]
  intro p hpa hpb
  unfold ptsOf at hpa hpb
  rw [Finset.mem_product, Finset.mem_Ico, Finset.mem_Ico] at hpa hpb
  unfold disjointR at hd
  rw [interArea_zero_iff] at hd
  simp only [satAdd] at hd
  omega

theorem map_sum_range (f : Rect → Nat) :
    ∀ l : List Rect, (l.map f).sum = ∑ i ∈ Finset.range l.length, f (l.getD i default) := by
  intro l
  induction l with
  | nil => rfl
  | cons a l ih =>
    rw [List.map_cons, List.sum_cons, ih, List.length_cons, Finset.sum_range_succ']
    have h0 : ((a :: l).getD 0 default) = a := rfl
    have hsucc : ∀ i, ((a :: l).getD (i + 1) default) = l.getD i default := fun i => rfl
    simp only [h0, hsucc]
    omega

theorem rects_area_le (rs : List Rect) (W H : Nat)
    (hpair : List.Pairwise disjointR rs)
    (hedge : ∀ r ∈ rs, r.x + r.width ≤ u32Max ∧ r.y + r.height ≤ u32Max)
    (hin : ∀ r ∈ rs, r.x + r.width ≤ W ∧ r.y + r.height ≤ H) :
    (rs.map (fun r => r.width * r.height)).sum ≤ W * H := by
  rw [map_sum_range]
  have hmem : ∀ i, i < rs.length → rs.getD i default ∈ rs := by
    intro i hi
    rw [List.getD_eq_getElem _ _ hi]
    exact List.getElem_mem hi
  have hdisj : ∀ i ∈ Finset.range rs.length, ∀ j ∈ Finset.range rs.length, i ≠ j →
      Disjoint (ptsOf (rs.getD i default)) (ptsOf (rs.getD j default)) := by
    intro i hi j hj hij
    rw [Finset.mem_range] at hi hj
    rw [List.pairwise_iff_getElem] at hpair
    rcases Nat.lt_or_ge i j with hlt | hge
    · exact ptsOf_disjoint _ _ (by
        rw [List.getD_eq_getElem _ _ hi, List.getD_eq_getElem _ _ hj]
        exact hpair i j hi hj hlt) (hedge _ (hmem i hi)) (hedge _ (hmem j hj))
    · have hlt : j < i := by omega
      refine (ptsOf_disjoint _ _ (by
        rw [List.getD_eq_getElem _ _ hi, List.getD_eq_getElem _ _ hj]
        exact disjointR_symm (hpair j i hj hi hlt)) (hedge _ (hmem i hi))
        (hedge _ (hmem j hj)))
  calc ∑ i ∈ Finset.range rs.length, (rs.getD i default).width * (rs.getD i default).height
      = ∑ i ∈ Finset.range rs.length, (ptsOf (rs.getD i default)).card := by
        refine Finset.sum_congr rfl ?_
        intro i _
        rw [card_ptsOf]
    _ = ((Finset.range rs.length).biUnion (fun i => ptsOf (rs.getD i default))).card :=
        (Finset.card_biUnion hdisj).symm
    _ ≤ (ptsOf (Rect.mk 0 0 W H)).card := by
        refine Finset.card_le_card (Finset.biUnion_subset.mpr ?_)
        intro i hi
        rw [Finset.mem_range] at hi
        exact ptsOf_subset _ W H (hin _ (hmem i hi)).1 (hin _ (hmem i hi)).2
    _ = W * H := by
        rw [card_ptsOf]

/-! ### Claim C9: packing efficiency -/

theorem wmul_eq_of_le (a b : Nat) (h : a * b ≤ u32Max) : wmul a b = a * b := by
  unfold wmul u32Mod
  unfold u32Max at h
  omega

theorem wadd_eq_of_le (a b : Nat) (h : a + b ≤ u32Max) : wadd a b = a + b := by
  unfold wadd u32Mod
  unfold u32Max at h
  omega

theorem w32_eq_of_le (a : Nat) (h : a ≤ u32Max) : w32 a = a := by
  unfold w32 u32Mod
  unfold u32Max at h
  omega

theorem satAdd_eq_of_le (a b : Nat) (h : a + b ≤ u32Max) : satAdd a b = a + b := by
  unfold satAdd
  omega

theorem foldl_add_eq_sum (l : List Nat) : ∀ n : Nat, l.foldl (· + ·) n = n + l.sum := by
  induction l with
  | nil => intro n; simp
  | cons a l ih => intro n; simp [ih, Nat.add_assoc]

theorem filterMap_replica (f : SourceTexture → Nat) (l : List SourceTexture) :
    l.filterMap (fun t => match t.replica_of with
      | some _ => none
      | none => some (f t)) =
    (l.filter (fun t => t.replica_of.isNone)).map f := by
  induction l with
  | nil => rfl
  | cons a l ih =>
    rw [List.filterMap_cons, List.filter_cons]
    cases h : a.replica_of with
    | none => simp [h, ih]
    | some o => simp [h, ih]

theorem pairwise_posNR (st : PackingSettings) (pg : TexturePage)
    (hpt : PTex st pg.textures) : List.Pairwise disjointR (posNR pg) := by
  unfold posNR
  rw [List.pairwise_map]
  refine List.Pairwise.imp_of_mem ?_ (List.Pairwise.filter _ hpt.1)
  intro t1 t2 h1 h2 hR
  rw [List.mem_filter] at h1 h2
  have hn1 : t1.replica_of = none := Option.isNone_iff_eq_none.mp h1.2
  have hn2 : t2.replica_of = none := Option.isNone_iff_eq_none.mp h2.2
  obtain ⟨pd1, hpd1, -, -, -⟩ := hpt.2 t1 h1.1 hn1
  obtain ⟨pd2, hpd2, -, -, -⟩ := hpt.2 t2 h2.1 hn2
  show disjointR (t1.packing.getD default).position (t2.packing.getD default).position
  rw [hpd1, hpd2, Option.getD_some, Option.getD_some]
  exact hR hn1 hn2 pd1 pd2 hpd1 hpd2

theorem posNR_inpage (st : PackingSettings) (pg : TexturePage) (hpt : PTex st pg.textures)
    (W H : Nat) (hps : st.page_size = some (W, H)) :
    ∀ r ∈ posNR pg, r.x + r.width ≤ W ∧ r.y + r.height ≤ H := by
  intro r hr
  unfold posNR at hr
  rw [List.mem_map] at hr
  obtain ⟨t, ht, rfl⟩ := hr
  rw [List.mem_filter] at ht
  have hn : t.replica_of = none := Option.isNone_iff_eq_none.mp ht.2
  obtain ⟨pd, hpd, -, -, hip⟩ := hpt.2 t ht.1 hn
  rw [hpd, Option.getD_some]
  unfold InPage at hip
  rw [hps] at hip
  exact hip

theorem posNR_bounds (st : PackingSettings) (pg : TexturePage) (hpt : PTex st pg.textures)
    (hcoord : ∀ r ∈ posNR pg, r.x + r.width ≤ u32Max ∧ r.y + r.height ≤ u32Max) :
    ∀ r ∈ posNR pg,
      r.x + r.width ≤ pg.packed_bounds.1 ∧ r.y + r.height ≤ pg.packed_bounds.2 := by
  intro r hr
  have hmem : r ∈ pg.packed_rects := by
    unfold posNR at hr
    rw [List.mem_map] at hr
    obtain ⟨t, ht, heq⟩ := hr
    rw [List.mem_filter] at ht
    have hn : t.replica_of = none := Option.isNone_iff_eq_none.mp ht.2
    obtain ⟨pd, hpd, -, -, -⟩ := hpt.2 t ht.1 hn
    rw [← heq, hpd, Option.getD_some]
    exact mem_packed_rects pg t pd ht.1 hpd
  obtain ⟨h1, h2⟩ := packed_bounds_ge pg r hmem
  obtain ⟨e1, e2⟩ := hcoord r hr
  rw [satAdd_eq_of_le _ _ e1] at h1
  rw [satAdd_eq_of_le _ _ e2] at h2
  exact ⟨h1, h2⟩

theorem page_source_le (st : PackingSettings) (pg : TexturePage) (W H : Nat)
    (hpt : PTex st pg.textures)
    (hnw : ∀ t ∈ pg.textures, t.replica_of = none →
      t.dimensions.width + st.spacing ≤ u32Max ∧ t.dimensions.height + st.spacing ≤ u32Max)
    (hedge : ∀ r ∈ posNR pg, r.x + r.width ≤ u32Max ∧ r.y + r.height ≤ u32Max)
    (hin : ∀ r ∈ posNR pg, r.x + r.width ≤ W ∧ r.y + r.height ≤ H) :
    (pg.textures.filterMap (fun t => match t.replica_of with
      | some _ => none
      | none => some (wmul t.dimensions.width t.dimensions.height))).foldl (· + ·) 0
      ≤ W * H := by
  rw [filterMap_replica, foldl_add_eq_sum, Nat.zero_add]
  have hle1 : ((pg.textures.filter (fun t => t.replica_of.isNone)).map
      (fun t => wmul t.dimensions.width t.dimensions.height)).sum ≤
      ((posNR pg).map (fun r => r.width * r.height)).sum := by
    unfold posNR
    rw [List.map_map]
    refine List.sum_le_sum ?_
    intro t ht
    rw [List.mem_filter] at ht
    have hn : t.replica_of = none := Option.isNone_iff_eq_none.mp ht.2
    obtain ⟨pd, hpd, hsc, -, -⟩ := hpt.2 t ht.1 hn
    obtain ⟨h1, h2⟩ := hnw t ht.1 hn
    show wmul t.dimensions.width t.dimensions.height ≤
      (t.packing.getD default).position.width * (t.packing.getD default).position.height
    rw [hpd, Option.getD_some]
    rcases hsc with ⟨hw, hh⟩ | ⟨hw, hh⟩
    · rw [hw, hh, wadd_eq_of_le _ _ h1, wadd_eq_of_le _ _ h2]
      exact le_trans (Nat.mod_le _ _)
        (Nat.mul_le_mul (Nat.le_add_right _ _) (Nat.le_add_right _ _))
    · rw [hw, hh, wadd_eq_of_le _ _ h2, wadd_eq_of_le _ _ h1]
      refine le_trans (Nat.mod_le _ _) ?_
      rw [Nat.mul_comm]
      exact Nat.mul_le_mul (Nat.le_add_right _ _) (Nat.le_add_right _ _)
  exact le_trans hle1 (rects_area_le (posNR pg) W H (pairwise_posNR st pg hpt) hedge hin)

/-- C9 counterexample: running the packer on a single `0×0` texture with
spacing `1` on a dynamic page places the texture (the spacing-expanded
`1×1` rectangle makes the packed area `1 ≠ 0`), yet the total source area
— and hence the efficiency — is `0`, refuting `0 < efficiency`. -/
theorem C9_counterexample : checkC9 = false := by rfl

/-- C9 (amended): for a packer produced by a successful `pack_everything`
run, if the total source area is positive and no `u32` arithmetic in the
efficiency computation overflows or saturates — the spacing-expanded
texture dimensions fit in `u32`, the right/bottom edges of the placed
non-replica rectangles fit in `u32`, and the total page area
(`pages × W × H` for fixed pages of positive dimensions, or the product of
the packed bounds for a dynamic page) fits in `u32` — then the efficiency
is strictly positive and at most `100`: the total source area is positive
and bounded by the total packed area.  (See `claimC9At` for the reduction
of the `f64` efficiency bounds to these exact inequalities.) -/
theorem C9_amended_efficiency (label : String) (srcs : List SourceTexture)
    (st : PackingSettings) (q : TexturePacker) (hst : st.wf)
    (hok : (TexturePacker.new label srcs st).pack_everything = .ok q)
    (hpos : 0 < q.total_source_area)
    (hnw : ∀ pg ∈ q.pages, ∀ t ∈ pg.textures, t.replica_of = none →
      t.dimensions.width + st.spacing ≤ u32Max ∧ t.dimensions.height + st.spacing ≤ u32Max)
    (hcoord : ∀ pg ∈ q.pages, ∀ r ∈ posNR pg,
      r.x + r.width ≤ u32Max ∧ r.y + r.height ≤ u32Max)
    (hpk : match st.page_size with
      | some wh => 0 < wh.1 ∧ 0 < wh.2 ∧ q.pages.length * wh.1 * wh.2 ≤ u32Max
      | none => (q.pages.getD 0 default).packed_bounds.1 *
          (q.pages.getD 0 default).packed_bounds.2 ≤ u32Max) :
    0 < q.total_source_area ∧ q.total_source_area ≤ q.total_packed_area := by
  obtain ⟨hset, -, -, hdyn1, hptex, -⟩ := pack_everything_facts label srcs st q hst hok
  refine ⟨hpos, ?_⟩
  cases hps : st.page_size with
  | some wh =>
    obtain ⟨W, H⟩ := wh
    rw [hps] at hpk
    have hpk2 : 0 < W ∧ 0 < H ∧ q.pages.length * W * H ≤ u32Max := hpk
    obtain ⟨hW, hH, hbound⟩ := hpk2
    have hpacked : q.total_packed_area = q.pages.length * W * H := by
      unfold TexturePacker.total_packed_area
      rw [hset, hps]
      show wmul (wmul (w32 q.pages.length) W) H = _
      have h1 : q.pages.length ≤ q.pages.length * W * H := by
        calc q.pages.length = q.pages.length * 1 * 1 := by ring
          _ ≤ q.pages.length * W * H := Nat.mul_le_mul (Nat.mul_le_mul_left _ hW) hH
      have h2 : q.pages.length * W ≤ q.pages.length * W * H := by
        calc q.pages.length * W = q.pages.length * W * 1 := by ring
          _ ≤ q.pages.length * W * H := Nat.mul_le_mul_left _ hH
      rw [w32_eq_of_le _ (le_trans h1 hbound),
        wmul_eq_of_le _ _ (le_trans h2 hbound), wmul_eq_of_le _ _ hbound]
    rw [hpacked]
    unfold TexturePacker.total_source_area
    rw [foldl_add_eq_sum, Nat.zero_add]
    have hsum := List.sum_le_card_nsmul
      (q.pages.map (fun pg =>
        (pg.textures.filterMap (fun t => match t.replica_of with
          | some _ => none
          | none => some (wmul t.dimensions.width t.dimensions.height))).foldl (· + ·) 0))
      (W * H) ?_
    · rw [List.length_map, smul_eq_mul] at hsum
      calc _ ≤ q.pages.length * (W * H) := hsum
        _ = q.pages.length * W * H := by ring
    · intro x hx
      rw [List.mem_map] at hx
      obtain ⟨pg, hpg, rfl⟩ := hx
      exact page_source_le st pg W H (hptex pg hpg) (hnw pg hpg) (hcoord pg hpg)
        (posNR_inpage st pg (hptex pg hpg) W H hps)
  | none =>
    have hone : q.pages.length = 1 := hdyn1 hps
    obtain ⟨pg, hpgeq⟩ := List.length_eq_one.mp hone
    have hpgmem : pg ∈ q.pages := by
      rw [hpgeq]
      exact List.mem_singleton.mpr rfl
    have hget : q.pages.getD 0 default = pg := by
      rw [hpgeq]
      rfl
    rw [hps] at hpk
    have hpk2 : pg.packed_bounds.1 * pg.packed_bounds.2 ≤ u32Max := by
      have h0 : (q.pages.getD 0 default).packed_bounds.1 *
          (q.pages.getD 0 default).packed_bounds.2 ≤ u32Max := hpk
      rw [hget] at h0
      exact h0
    have hpacked : q.total_packed_area = pg.packed_bounds.1 * pg.packed_bounds.2 := by
      unfold TexturePacker.total_packed_area
      rw [hset, hps]
      show wmul (q.pages.getD 0 default).packed_bounds.1
        (q.pages.getD 0 default).packed_bounds.2 = _
      rw [hget, wmul_eq_of_le _ _ hpk2]
    rw [hpacked]
    unfold TexturePacker.total_source_area
    rw [hpgeq]
    rw [show ([pg].map (fun pg =>
        (pg.textures.filterMap (fun t => match t.replica_of with
          | some _ => none
          | none => some (wmul t.dimensions.width t.dimensions.height))).foldl (· + ·) 0))
      = [(pg.textures.filterMap (fun t => match t.replica_of with
          | some _ => none
          | none => some (wmul t.dimensions.width t.dimensions.height))).foldl (· + ·) 0]
      from rfl]
    rw [foldl_add_eq_sum, Nat.zero_add, List.sum_singleton]
    exact page_source_le st pg pg.packed_bounds.1 pg.packed_bounds.2 (hptex pg hpgmem)
      (hnw pg hpgmem) (hcoord pg hpgmem)
      (posNR_bounds st pg (hptex pg hpgmem) (hcoord pg hpgmem))

/-- Witness for the amended C9: the run of `qC9` (one `2×2` texture,
spacing `0`, dynamic page) satisfies every hypothesis, and its source area
`4` is positive and bounded by its packed area `4`. -/
theorem C9_witness :
    0 < qC9.total_source_area ∧ qC9.total_source_area ≤ qC9.total_packed_area :=
  C9_amended_efficiency "a" [⟨"z", "", Rect.new 0 0 2 2, none, none⟩]
    ⟨.Distance, 0, false, none⟩ qC9 (by decide) (by rfl) (by decide) (by decide)
    (by decide) (by decide)
